import Mathlib

/-!
# Verification of the NodeModal save/display core

A shallow embedding of `src/features/modals/NodeModal/index.tsx`:

* `normalizeNodeData` — display normalization of a node's rows;
* `convertValueByType` — per-row type coercion of the edited textual value;
* `handleSave` — the path-addressed read/modify/write save algorithm.

JSON values are modelled by the mutual inductive `JValue`/`JList`/`JFields`
(`JFields` keeps insertion order, as JavaScript objects do for string keys).
JSON numbers are modelled as integers (floating point is out of scope), so
the models of the platform builtins `JSON.parse` / `JSON.stringify` /
`Number` / `String(...)` cover the integer-numbered fragment of JSON.
Prototype-chain lookups and the special `length` property of arrays are not
modelled; object property lookup is own-property lookup.
-/

mutual

/-- An in-memory JSON value, as produced by `JSON.parse`. -/
inductive JValue where
  | null
  | bool (b : Bool)
  | num (n : Int)
  | str (s : String)
  | arr (elems : JList)
  | obj (fields : JFields)

/-- A list of JSON array elements. -/
inductive JList where
  | nil
  | cons (head : JValue) (tail : JList)

/-- An ordered list of object fields (JavaScript objects preserve insertion
order for string keys). -/
inductive JFields where
  | nil
  | cons (key : String) (val : JValue) (tail : JFields)

end

mutual

def beqV : JValue → JValue → Bool
  | .null, .null => true
  | .bool a, .bool b => a = b
  | .num a, .num b => a = b
  | .str a, .str b => a = b
  | .arr a, .arr b => beqL a b
  | .obj a, .obj b => beqF a b
  | _, _ => false

def beqL : JList → JList → Bool
  | .nil, .nil => true
  | .cons x xs, .cons y ys => beqV x y && beqL xs ys
  | _, _ => false

def beqF : JFields → JFields → Bool
  | .nil, .nil => true
  | .cons k v fs, .cons k' v' fs' => k = k' && beqV v v' && beqF fs fs'
  | _, _ => false

end

mutual

def beqV_iff : ∀ (a b : JValue), beqV a b = true ↔ a = b
  | .null, b => by cases b <;> simp [beqV]
  | .bool x, b => by cases b <;> simp [beqV]
  | .num x, b => by cases b <;> simp [beqV]
  | .str x, b => by cases b <;> simp [beqV]
  | .arr xs, b => by
      cases b with
      | arr ys => simp [beqV, beqL_iff xs ys]
      | null => simp [beqV]
      | bool => simp [beqV]
      | num => simp [beqV]
      | str => simp [beqV]
      | obj => simp [beqV]
  | .obj fs, b => by
      cases b with
      | obj fs' => simp [beqV, beqF_iff fs fs']
      | null => simp [beqV]
      | bool => simp [beqV]
      | num => simp [beqV]
      | str => simp [beqV]
      | arr => simp [beqV]

def beqL_iff : ∀ (a b : JList), beqL a b = true ↔ a = b
  | .nil, b => by cases b <;> simp [beqL]
  | .cons x xs, b => by
      cases b with
      | nil => simp [beqL]
      | cons y ys => simp [beqL, beqV_iff x y, beqL_iff xs ys]

def beqF_iff : ∀ (a b : JFields), beqF a b = true ↔ a = b
  | .nil, b => by cases b <;> simp [beqF]
  | .cons k v fs, b => by
      cases b with
      | nil => simp [beqF]
      | cons k' v' fs' => simp [beqF, beqV_iff v v', beqF_iff fs fs', and_assoc]

end

instance : DecidableEq JValue := fun a b => decidable_of_iff _ (beqV_iff a b)

instance : DecidableEq JList := fun a b => decidable_of_iff _ (beqL_iff a b)

instance : DecidableEq JFields := fun a b => decidable_of_iff _ (beqF_iff a b)

/-! ## Ordered object-field operations

JavaScript property semantics on plain objects: assignment to an existing
key keeps its position and replaces the value, assignment to a fresh key
appends it, and `delete` removes the key while keeping the order of the
remaining keys. -/

/-- `obj[k] = v` on an ordered field list. -/
def setKey : JFields → String → JValue → JFields
  | .nil, k, v => .cons k v .nil
  | .cons k' v' fs, k, v =>
      if k' = k then .cons k v fs else .cons k' v' (setKey fs k v)

/-- `delete obj[k]` on an ordered field list. -/
def delKey : JFields → String → JFields
  | .nil, _ => .nil
  | .cons k' v' fs, k =>
      if k' = k then delKey fs k else .cons k' v' (delKey fs k)

/-- Own-property lookup `obj[k]`; `none` models `undefined`. -/
def lookupKey : JFields → String → Option JValue
  | .nil, _ => none
  | .cons k' v' fs, k => if k' = k then some v' else lookupKey fs k

/-- Whether the key occurs in the field list. -/
def keyMem : JFields → String → Bool
  | .nil, _ => false
  | .cons k' _ fs, k => k' = k || keyMem fs k

/-- All keys pairwise distinct (holds for every object built by the parser
or by the operations above). -/
def nodupKeys : JFields → Bool
  | .nil => true
  | .cons k _ fs => !keyMem fs k && nodupKeys fs

/-! ## JSON array element operations -/

def jlGet : JList → Nat → Option JValue
  | .nil, _ => none
  | .cons x _, 0 => some x
  | .cons _ xs, n+1 => jlGet xs n

def jlSet : JList → Nat → JValue → JList
  | .nil, _, _ => .nil
  | .cons _ xs, 0, v => .cons v xs
  | .cons x xs, n+1, v => .cons x (jlSet xs n v)

def jlLength : JList → Nat
  | .nil => 0
  | .cons _ xs => jlLength xs + 1

/-- Pad an array out to index `i` with `null` holes and write `v` there
(the JS semantics of assigning past the end of an array: the holes
serialize as `null`). -/
def jlSetPad : JList → Nat → JValue → JList
  | .nil, 0, v => .cons v .nil
  | .nil, n+1, v => .cons .null (jlSetPad .nil n v)
  | .cons _ xs, 0, v => .cons v xs
  | .cons x xs, n+1, v => .cons x (jlSetPad xs n v)

/-! ## Decimal numerals

A fuel-based decimal printer for naturals (fuel keeps the recursion
structural so the kernel can evaluate it); `intToChars` prints integers the
way JavaScript's `String(n)` / `JSON.stringify(n)` prints integral numbers. -/

def digitChar (n : Nat) : Char := Char.ofNat (48 + n)

def natToCharsAux : Nat → Nat → List Char
  | 0, _ => []
  | fuel+1, n =>
      if n < 10 then [digitChar n]
      else natToCharsAux fuel (n / 10) ++ [digitChar (n % 10)]

def natToChars (n : Nat) : List Char := natToCharsAux (n + 1) n

def intToChars : Int → List Char
  | .ofNat m => natToChars m
  | .negSucc m => '-' :: natToChars (m + 1)

def natKey (n : Nat) : String := String.mk (natToChars n)

/-! ## JavaScript string conversion and numeric coercion -/

mutual

/-- Model of JavaScript `String(v)` on a parsed JSON value: scalars print
as their literal text, arrays comma-join their elements (with `null`
rendered empty, as `Array.prototype.toString` does), and plain objects
print as `"[object Object]"`. -/
def jsToString : JValue → String
  | .null => "null"
  | .bool true => "true"
  | .bool false => "false"
  | .num n => String.mk (intToChars n)
  | .str s => s
  | .arr xs => jsArrToString xs
  | .obj _ => "[object Object]"

def jsArrToString : JList → String
  | .nil => ""
  | .cons .null .nil => ""
  | .cons x .nil => jsToString x
  | .cons .null (.cons y ys) => "," ++ jsArrToString (.cons y ys)
  | .cons x (.cons y ys) => jsToString x ++ "," ++ jsArrToString (.cons y ys)

end

/-- An array element as `Array.prototype.toString` renders it: `null`
prints empty, everything else as `String(v)`. -/
def jsElemToString : JValue → String
  | .null => ""
  | v => jsToString v

def isJsSpace (c : Char) : Bool :=
  c = ' ' || c = '\t' || c = '\n' || c = '\r' || c = '\x0b' || c = '\x0c'

/-- Digit run with accumulated value; stops at the first non-digit. -/
def digitsValue : List Char → Option Nat
  | [] => none
  | ds =>
      if ds.all Char.isDigit then
        some (ds.foldl (fun a c => a * 10 + (c.toNat - 48)) 0)
      else none

/-- Model of JavaScript `Number(s)` restricted to integer literals, with
`none` playing the role of `NaN`: whitespace is trimmed, the empty string
converts to `0`, an optional sign followed by digits converts to the
integer, and anything else (including the fractional/hex/exponent forms
not modelled here) is `NaN`. -/
def jsNumber (s : String) : Option Int :=
  let t := ((s.data.dropWhile isJsSpace).reverse.dropWhile isJsSpace).reverse
  match t with
  | [] => some 0
  | '-' :: ds => (digitsValue ds).map (fun n => -(n : Int))
  | '+' :: ds => (digitsValue ds).map (fun n => (n : Int))
  | ds => (digitsValue ds).map (fun n => (n : Int))

/-- Embedding of `convertValueByType` (NodeModal/index.tsx:63-73): `number`
parses via `Number` and keeps the text when the result is `NaN`; `boolean`
is `true` iff the text is exactly `"true"`; `null` always coerces to null;
every other type tag keeps the literal text. -/
def convertValueByType (ty : String) (value : String) : JValue :=
  if ty = "number" then
    match jsNumber value with
    | some n => .num n
    | none => .str value
  else if ty = "boolean" then .bool (value = "true")
  else if ty = "null" then .null
  else .str value

/-! ## Path segments and resolution -/

/-- A path segment as stored on a node: a string key or a numeric index
(`typeof seg === "number"` in the source). -/
inductive Seg where
  | key (s : String)
  | idx (n : Nat)
deriving DecidableEq

/-- A string that is a canonical array index (`"0"`, `"17"`, ... — digits
with no leading zero), as JavaScript array property lookup treats it. -/
def toArrayIndex (s : String) : Option Nat :=
  match digitsValue s.data with
  | some n => if String.mk (natToChars n) = s then some n else none
  | none => none

/-- JavaScript truthiness of a parsed JSON value. -/
def truthy : JValue → Bool
  | .null => false
  | .bool b => b
  | .num n => n ≠ 0
  | .str s => s ≠ ""
  | .arr _ => true
  | .obj _ => true

/-- One JavaScript indexing step `acc[seg]` on a parsed JSON value
(own-property lookup; `none` models `undefined`). Objects look keys up by
string (numeric segments through their decimal spelling), arrays by index
(also through canonical numeric strings), strings index to one-character
strings; other scalars have no indexable properties. -/
def jsIndex : JValue → Seg → Option JValue
  | .obj fs, .key s => lookupKey fs s
  | .obj fs, .idx n => lookupKey fs (natKey n)
  | .arr xs, .idx n => jlGet xs n
  | .arr xs, .key s =>
      match toArrayIndex s with
      | some i => jlGet xs i
      | none => none
  | .str s, .idx n => (s.data.get? n).map (fun c => .str (String.mk [c]))
  | .str s, .key k =>
      match toArrayIndex k with
      | some i => (s.data.get? i).map (fun c => .str (String.mk [c]))
      | none => none
  | _, _ => none

/-- Embedding of the `reduce` in `handleSave` (index.tsx:84):
`targetPath.reduce((acc, seg) => (acc ? acc[seg] : undefined), parsed)` —
each step indexes only through a truthy accumulator, and `none` models
`undefined`. -/
def resolveSteps (acc : Option JValue) : List Seg → Option JValue
  | [] => acc
  | seg :: p =>
      resolveSteps
        (match acc with
         | some a => if truthy a then jsIndex a seg else none
         | none => none) p

/-- The object picked for editing (index.tsx:81-86): the document root for
an empty path, otherwise the `reduce` result with `?? parsed` mapping
`undefined` and `null` back to the root. -/
def resolveTarget (doc : JValue) (path : List Seg) : JValue :=
  if path = [] then doc
  else
    match resolveSteps (some doc) path with
    | some v => if v = .null then doc else v
    | none => doc

/-- Where the edits land: the full path when the `reduce` resolved to a
non-null value, the document root otherwise. `resolveTarget` is the value
of the document at this location. -/
def editLocation (doc : JValue) (path : List Seg) : List Seg :=
  if path = [] then []
  else
    match resolveSteps (some doc) path with
    | some v => if v = .null then [] else path
    | none => []

/-- Write `newSub` back at `p` inside `doc`: the pure counterpart of the
source's in-place mutation of the object reference returned by the
`reduce`. Mirrors `jsIndex` step by step; a step that would not have
resolved leaves the document unchanged (such a step is unreachable when
`p` is a location produced by `editLocation`), and mutation through an
extracted scalar (e.g. a character of a string) is lost, as in
JavaScript. -/
def updatePath : JValue → List Seg → JValue → JValue
  | _, [], newSub => newSub
  | .obj fs, .key k :: p, newSub =>
      match lookupKey fs k with
      | some u => .obj (setKey fs k (updatePath u p newSub))
      | none => .obj fs
  | .obj fs, .idx n :: p, newSub =>
      match lookupKey fs (natKey n) with
      | some u => .obj (setKey fs (natKey n) (updatePath u p newSub))
      | none => .obj fs
  | .arr xs, .idx n :: p, newSub =>
      match jlGet xs n with
      | some u => .arr (jlSet xs n (updatePath u p newSub))
      | none => .arr xs
  | .arr xs, .key s :: p, newSub =>
      (match toArrayIndex s with
       | some i =>
           match jlGet xs i with
           | some u => .arr (jlSet xs i (updatePath u p newSub))
           | none => .arr xs
       | none => .arr xs)
  | .null, _ :: _, _ => .null
  | .bool b, _ :: _, _ => .bool b
  | .num n, _ :: _, _ => .num n
  | .str s, _ :: _, _ => .str s

/-! ## The row-edit loop -/

/-- One editable field of a node: key, raw value, declared type tag. An
absent key or type is modelled by the empty string (both are falsy, like
the `undefined` they stand for). -/
structure NodeRow where
  key : String
  value : JValue
  rowType : String
deriving DecidableEq

/-- `objToEdit[newKey] = newValue`: property assignment on the edit
target. On plain objects it inserts or overwrites; on arrays a canonical
numeric key writes the element (padding holes with `null`) and any other
key creates a property invisible to `JSON.stringify`; on primitives,
strict-mode assignment throws (`none`), which the `try`/`catch` in
`handleSave` turns into an aborted save. -/
def writeKeyJs (target : JValue) (k : String) (v : JValue) : Option JValue :=
  match target with
  | .obj fs => some (.obj (setKey fs k v))
  | .arr xs =>
      some (.arr (match toArrayIndex k with
                  | some i => jlSetPad xs i v
                  | none => xs))
  | _ => none

/-- `delete objToEdit[originalRow.key]`. On plain objects it removes the
key; on arrays a canonical in-range numeric key leaves a hole (which
serializes as `null`) and anything else is a no-op; on primitives it is a
no-op (the subsequent assignment is what throws). -/
def deleteKeyJs (target : JValue) (k : String) : Option JValue :=
  match target with
  | .obj fs => some (.obj (delKey fs k))
  | .arr xs =>
      some (.arr (match toArrayIndex k with
                  | some i => if i < jlLength xs then jlSet xs i .null else xs
                  | none => xs))
  | .null => some .null
  | .bool b => some (.bool b)
  | .num n => some (.num n)
  | .str s => some (.str s)

/-- One iteration of the `rows.forEach` body (index.tsx:88-99): skip
keyless rows; coerce `String(r.value)` by the row's type; if the key was
renamed relative to the same-index original row, delete the old key first;
then write the new key/value pair. -/
def applyRow (origRows : List NodeRow) (idx : Nat) (target : JValue) (r : NodeRow) :
    Option JValue :=
  if r.key = "" then some target
  else
    let newValue := convertValueByType r.rowType (jsToString r.value)
    let afterDelete :=
      match origRows.get? idx with
      | some o => if o.key ≠ "" ∧ o.key ≠ r.key then deleteKeyJs target o.key else some target
      | none => some target
    match afterDelete with
    | some t => writeKeyJs t r.key newValue
    | none => none

def applyRowsFrom (origRows : List NodeRow) : Nat → JValue → List NodeRow → Option JValue
  | _, target, [] => some target
  | idx, target, r :: rest =>
      match applyRow origRows idx target r with
      | some t => applyRowsFrom origRows (idx + 1) t rest
      | none => none

/-- The whole `rows.forEach` loop applied to the edit target. -/
def applyRows (origRows rows : List NodeRow) (target : JValue) : Option JValue :=
  applyRowsFrom origRows 0 target rows

/-! ## JSON.stringify(v, null, 2)

`serChars d v` is the character stream of `JSON.stringify(v, null, 2)`
for a value sitting at nesting depth `d` (indentation `2*d` spaces):
scalars print inline, empty containers as `[]`/`{}` without whitespace,
and non-empty containers spread one element per line, each line indented
one level deeper, with `": "` after object keys. -/

def padChars (d : Nat) : List Char := List.replicate (2 * d) ' '

/-- The escapes `JSON.stringify` emits for the characters it must quote
(the `\uXXXX` escapes for the remaining control characters are not
modelled; such characters pass through verbatim, consistently with the
parser below). -/
def escapeChar (c : Char) : List Char :=
  if c = '"' then ['\\', '"']
  else if c = '\\' then ['\\', '\\']
  else if c = '\n' then ['\\', 'n']
  else if c = '\t' then ['\\', 't']
  else if c = '\r' then ['\\', 'r']
  else if c = '\x08' then ['\\', 'b']
  else if c = '\x0c' then ['\\', 'f']
  else [c]

def escChars (s : String) : List Char := (s.data.map escapeChar).flatten

def quoteChars (s : String) : List Char := '"' :: (escChars s ++ ['"'])

mutual

def serChars (d : Nat) : JValue → List Char
  | .null => ['n', 'u', 'l', 'l']
  | .bool b => if b then ['t', 'r', 'u', 'e'] else ['f', 'a', 'l', 's', 'e']
  | .num n => intToChars n
  | .str s => quoteChars s
  | .arr .nil => ['[', ']']
  | .arr (.cons x xs) =>
      '[' :: '\n' :: (padChars (d + 1) ++ (serChars (d + 1) x ++
        (serArrTail (d + 1) xs ++ ('\n' :: (padChars d ++ [']'])))))
  | .obj .nil => ['\x7b', '\x7d']
  | .obj (.cons k v fs) =>
      '\x7b' :: '\n' :: (padChars (d + 1) ++ (quoteChars k ++ (':' :: ' ' ::
        (serChars (d + 1) v ++
          (serObjTail (d + 1) fs ++ ('\n' :: (padChars d ++ ['\x7d'])))))))

def serArrTail (d : Nat) : JList → List Char
  | .nil => []
  | .cons x xs => ',' :: '\n' :: (padChars d ++ (serChars d x ++ serArrTail d xs))

def serObjTail (d : Nat) : JFields → List Char
  | .nil => []
  | .cons k v fs =>
      ',' :: '\n' :: (padChars d ++ (quoteChars k ++ (':' :: ' ' ::
        (serChars d v ++ serObjTail d fs))))

end

/-- Model of `JSON.stringify(v, null, 2)`. -/
def stringify (v : JValue) : String := String.mk (serChars 0 v)

/-! ## JSON.parse

A recursive-descent model of `JSON.parse` over the integer-numbered JSON
fragment, on character lists with a fuel argument (the fuel keeps the
recursion structural; the top level supplies more fuel than the input
length, which is always enough because every recursive call consumes at
least one character). -/

def isJsonWs (c : Char) : Bool :=
  c = ' ' || c = '\n' || c = '\t' || c = '\r'

def skipWs : List Char → List Char
  | [] => []
  | c :: cs => if isJsonWs c then skipWs cs else c :: cs

/-- Consume a run of digits, left-accumulating their value onto `acc`. -/
def parseDigitsAcc (acc : Nat) : List Char → Nat × List Char
  | [] => (acc, [])
  | c :: cs =>
      if c.isDigit then parseDigitsAcc (acc * 10 + (c.toNat - 48)) cs
      else (acc, c :: cs)

/-- Parse the body of a string literal after its opening quote, returning
the decoded characters and the input after the closing quote. -/
def parseStringBody : List Char → Option (List Char × List Char)
  | [] => none
  | c :: cs =>
    if c = '"' then some ([], cs)
    else if c = '\\' then
      match cs with
      | [] => none
      | e :: cs' =>
        let dec : Option Char :=
          if e = '"' then some '"'
          else if e = '\\' then some '\\'
          else if e = '/' then some '/'
          else if e = 'n' then some '\n'
          else if e = 't' then some '\t'
          else if e = 'r' then some '\r'
          else if e = 'b' then some '\x08'
          else if e = 'f' then some '\x0c'
          else none
        match dec with
        | some d => (parseStringBody cs').map (fun p => (d :: p.1, p.2))
        | none => none
    else (parseStringBody cs).map (fun p => (c :: p.1, p.2))

/-- Rebuild an object from parsed key/value pairs the way `JSON.parse`
does: later duplicate keys overwrite earlier ones in place. -/
def foldFields : List (String × JValue) → JFields
  | ps => ps.foldl (fun fs p => setKey fs p.1 p.2) .nil

mutual

def parseValue : Nat → List Char → Option (JValue × List Char)
  | 0, _ => none
  | fuel+1, cs =>
    match skipWs cs with
    | [] => none
    | c :: rest =>
      if c = 'n' then
        match rest with
        | 'u' :: 'l' :: 'l' :: r => some (.null, r)
        | _ => none
      else if c = 't' then
        match rest with
        | 'r' :: 'u' :: 'e' :: r => some (.bool true, r)
        | _ => none
      else if c = 'f' then
        match rest with
        | 'a' :: 'l' :: 's' :: 'e' :: r => some (.bool false, r)
        | _ => none
      else if c = '"' then
        (parseStringBody rest).map (fun p => (.str (String.mk p.1), p.2))
      else if c = '-' then
        match rest with
        | [] => none
        | c2 :: rest2 =>
          if c2.isDigit then
            let p := parseDigitsAcc (c2.toNat - 48) rest2
            some (.num (-(p.1 : Int)), p.2)
          else none
      else if c.isDigit then
        let p := parseDigitsAcc (c.toNat - 48) rest
        some (.num (p.1 : Int), p.2)
      else if c = '[' then
        match skipWs rest with
        | [] => none
        | c2 :: rest2 =>
          if c2 = ']' then some (.arr .nil, rest2)
          else (parseArrayRest fuel (c2 :: rest2)).map (fun p => (.arr p.1, p.2))
      else if c = '\x7b' then
        match skipWs rest with
        | [] => none
        | c2 :: rest2 =>
          if c2 = '\x7d' then some (.obj .nil, rest2)
          else (parseObjRest fuel (c2 :: rest2)).map (fun p => (.obj (foldFields p.1), p.2))
      else none

/-- One or more comma-separated array elements followed by `]`. -/
def parseArrayRest : Nat → List Char → Option (JList × List Char)
  | 0, _ => none
  | fuel+1, cs =>
    match parseValue fuel cs with
    | none => none
    | some (v, cs1) =>
      match skipWs cs1 with
      | [] => none
      | c :: cs2 =>
        if c = ',' then
          match parseArrayRest fuel cs2 with
          | some (vs, r) => some (.cons v vs, r)
          | none => none
        else if c = ']' then some (.cons v .nil, cs2)
        else none

/-- One or more comma-separated `"key": value` members followed by `}`. -/
def parseObjRest : Nat → List Char → Option (List (String × JValue) × List Char)
  | 0, _ => none
  | fuel+1, cs =>
    match skipWs cs with
    | [] => none
    | c :: cs0 =>
      if c = '"' then
        match parseStringBody cs0 with
        | none => none
        | some (kChars, cs1) =>
          match skipWs cs1 with
          | [] => none
          | c2 :: cs2 =>
            if c2 = ':' then
              match parseValue fuel cs2 with
              | none => none
              | some (v, cs3) =>
                match skipWs cs3 with
                | [] => none
                | c3 :: cs4 =>
                  if c3 = ',' then
                    match parseObjRest fuel cs4 with
                    | some (fs, r) => some ((String.mk kChars, v) :: fs, r)
                    | none => none
                  else if c3 = '\x7d' then some ([(String.mk kChars, v)], cs4)
                  else none
            else none
      else none

end

/-- Model of `JSON.parse`: parse one value and require only trailing
whitespace after it; `none` models the thrown `SyntaxError`. -/
def parseJson (s : String) : Option JValue :=
  match parseValue (s.data.length + 1) s.data with
  | some (v, r) => if skipWs r = [] then some v else none
  | none => none

/-! ## The save algorithm and the display normalizer -/

/-- Embedding of the body of `handleSave` (index.tsx:75-109) up to the
store write: parse the current document text (an empty text parses as
`{}` via `json || "{}"`), pick the edit target by path resolution, run the
row loop on it, and re-serialize the document with the mutated target
written back at its location. `none` is the `catch` path: a parse error
or a strict-mode `TypeError` from assigning to a primitive target. -/
def handleSaveCore (jsonText : String) (path : List Seg)
    (origRows rows : List NodeRow) : Option String :=
  match parseJson (if jsonText = "" then "\x7b\x7d" else jsonText) with
  | none => none
  | some parsed =>
    let loc := editLocation parsed path
    let target := resolveTarget parsed path
    match applyRows origRows rows target with
    | some newTarget => some (stringify (updatePath parsed loc newTarget))
    | none => none

/-- The store-visible state `handleSave` touches: the document text and
has-unsaved-changes flag held by `useFile`, and the modal's editing
flag. -/
structure ModalState where
  contents : String
  hasChanges : Bool
  editing : Bool
deriving DecidableEq

/-- Embedding of `handleSave` including its effects: on success the new
text is written back with `hasChanges := true` and editing mode is left;
on any failure the `catch` only logs, so the state is returned
untouched. -/
def handleSave (st : ModalState) (path : List Seg)
    (origRows rows : List NodeRow) : ModalState :=
  match handleSaveCore st.contents path origRows rows with
  | some out => { contents := out, hasChanges := true, editing := false }
  | none => st

/-- The display object built by `normalizeNodeData`'s `forEach`: rows
whose type is neither `array` nor `object` and whose key is non-empty,
inserted in order with JavaScript assignment semantics. -/
def buildDisplayObj (rows : List NodeRow) : JFields :=
  rows.foldl
    (fun fs r =>
      if r.rowType ≠ "array" ∧ r.rowType ≠ "object" ∧ r.key ≠ "" then setKey fs r.key r.value
      else fs)
    .nil

/-- Embedding of `normalizeNodeData` (index.tsx:21-32): `"{}"` for no
rows, the bare `String(value)` for a single keyless row, otherwise the
2-space-indented serialization of the scalar rows keyed object. -/
def normalizeNodeData : List NodeRow → String
  | [] => "\x7b\x7d"
  | r :: rest =>
      if rest = [] ∧ r.key = "" then jsToString r.value
      else stringify (.obj (buildDisplayObj (r :: rest)))

/-! ## Well-formedness: no duplicate object keys anywhere

`JSON.parse` can never produce duplicate keys (later duplicates in the
text overwrite earlier ones), and every operation of the save algorithm
preserves this. -/

mutual

def wfVal : JValue → Bool
  | .null => true
  | .bool _ => true
  | .num _ => true
  | .str _ => true
  | .arr xs => wfElems xs
  | .obj fs => nodupKeys fs && wfFields fs

def wfElems : JList → Bool
  | .nil => true
  | .cons x xs => wfVal x && wfElems xs

def wfFields : JFields → Bool
  | .nil => true
  | .cons _ v fs => wfVal v && wfFields fs

end

/-! ## Auxiliary predicates and reference functions for the development -/

/-- Where a digit run stops. -/
def noDigitStart : List Char → Prop
  | [] => True
  | c :: _ => c.isDigit = false

def allWs (w : List Char) : Prop := ∀ c ∈ w, isJsonWs c = true

/-- Append on field lists. -/
def jfApp : JFields → JFields → JFields
  | .nil, gs => gs
  | .cons k v fs, gs => .cons k v (jfApp fs gs)

/-- The field list as a plain list of pairs (the shape the object parser
returns before rebuilding). -/
def fieldsPairs : JFields → List (String × JValue)
  | .nil => []
  | .cons k v fs => (k, v) :: fieldsPairs fs

/-- Straight-line indexing along a path: `jsIndex` at each segment, with no
truthiness guard (the form the spec's PathResolver describes). -/
def getPath : JValue → List Seg → Option JValue
  | doc, [] => some doc
  | doc, seg :: p =>
    match jsIndex doc seg with
    | some u => getPath u p
    | none => none

/-! ## Lemmas: decimal numerals -/

theorem digitChar_isDigit {k : Nat} (h : k < 10) : (digitChar k).isDigit = true := by
  interval_cases k <;> decide

theorem digitChar_toNat {k : Nat} (h : k < 10) : (digitChar k).toNat - 48 = k := by
  interval_cases k <;> decide

theorem digitChar_not_ws {k : Nat} (h : k < 10) : isJsonWs (digitChar k) = false := by
  interval_cases k <;> decide

theorem natToCharsAux_irrel :
    ∀ (f1 f2 n : Nat), n < f1 → n < f2 → natToCharsAux f1 n = natToCharsAux f2 n := by
  intro f1
  induction f1 with
  | zero => omega
  | succ f1 ih =>
    intro f2 n h1 h2
    match f2, h2 with
    | f2+1, h2 =>
      by_cases hn : n < 10
      · simp [natToCharsAux, hn]
      · have hd : n / 10 < n := Nat.div_lt_self (by omega) (by omega)
        simp only [natToCharsAux, if_neg hn]
        rw [ih f2 (n / 10) (by omega) (by omega)]

theorem natToChars_lt (n : Nat) (h : n < 10) : natToChars n = [digitChar n] := by
  simp [natToChars, natToCharsAux, h]

theorem natToChars_ge (n : Nat) (h : 10 ≤ n) :
    natToChars n = natToChars (n / 10) ++ [digitChar (n % 10)] := by
  have hd : n / 10 < n := Nat.div_lt_self (by omega) (by omega)
  have h1 : natToChars n = natToCharsAux n (n / 10) ++ [digitChar (n % 10)] := by
    simp [natToChars, natToCharsAux, if_neg (by omega : ¬ n < 10)]
  rw [h1, natToCharsAux_irrel n (n / 10 + 1) (n / 10) (by omega) (by omega)]
  rfl

theorem natToChars_ne_nil (n : Nat) : natToChars n ≠ [] := by
  by_cases h : n < 10
  · simp [natToChars_lt n h]
  · simp [natToChars_ge n (by omega)]

theorem natToChars_all_digits (n : Nat) : ∀ c ∈ natToChars n, c.isDigit = true := by
  induction n using Nat.strong_induction_on with
  | _ n ih =>
    by_cases h : n < 10
    · simp [natToChars_lt n h, digitChar_isDigit h]
    · rw [natToChars_ge n (by omega)]
      intro c hc
      rcases List.mem_append.mp hc with hc | hc
      · exact ih (n / 10) (Nat.div_lt_self (by omega) (by omega)) c hc
      · simp only [List.mem_singleton] at hc
        subst hc
        exact digitChar_isDigit (Nat.mod_lt _ (by omega))

theorem natToChars_foldl (n : Nat) :
    (natToChars n).foldl (fun a c => a * 10 + (c.toNat - 48)) 0 = n := by
  induction n using Nat.strong_induction_on with
  | _ n ih =>
    by_cases h : n < 10
    · simp [natToChars_lt n h, digitChar_toNat h]
    · rw [natToChars_ge n (by omega), List.foldl_append,
        ih (n / 10) (Nat.div_lt_self (by omega) (by omega))]
      simp only [List.foldl_cons, List.foldl_nil, digitChar_toNat (Nat.mod_lt _ (by omega))]
      omega

theorem parseDigitsAcc_stop (acc : Nat) (rest : List Char) (h : noDigitStart rest) :
    parseDigitsAcc acc rest = (acc, rest) := by
  cases rest with
  | nil => rfl
  | cons c cs =>
    have h' : c.isDigit = false := h
    simp [parseDigitsAcc, h']

theorem parseDigitsAcc_app (ds : List Char) (hds : ∀ c ∈ ds, c.isDigit = true) :
    ∀ (acc : Nat) (rest : List Char),
      parseDigitsAcc acc (ds ++ rest) =
        parseDigitsAcc (ds.foldl (fun a c => a * 10 + (c.toNat - 48)) acc) rest := by
  induction ds with
  | nil => intro acc rest; rfl
  | cons c cs ih =>
    intro acc rest
    have hc : c.isDigit = true := hds c (by simp)
    simp only [List.cons_append, parseDigitsAcc, hc, if_pos]
    exact ih (fun d hd => hds d (by simp [hd])) _ rest

/-- Parsing the printed digits of `n` (first digit already consumed into the
accumulator) recovers `n` and stops at the first non-digit. -/
theorem parseDigits_natToChars (n : Nat) (c : Char) (cs rest : List Char)
    (hn : natToChars n = c :: cs) (hr : noDigitStart rest) :
    parseDigitsAcc (c.toNat - 48) (cs ++ rest) = (n, rest) := by
  have hds : ∀ d ∈ cs, d.isDigit = true := by
    intro d hd
    exact natToChars_all_digits n d (by rw [hn]; simp [hd])
  rw [parseDigitsAcc_app cs hds, parseDigitsAcc_stop _ _ hr]
  have hfold : (c :: cs).foldl (fun a c => a * 10 + (c.toNat - 48)) 0 = n := by
    rw [← hn]; exact natToChars_foldl n
  simp only [List.foldl_cons, Nat.zero_mul, Nat.zero_add] at hfold
  rw [hfold]

/-! ## Lemmas: whitespace and string literals -/

theorem skipWs_cons_ws {c : Char} (h : isJsonWs c = true) (cs : List Char) :
    skipWs (c :: cs) = skipWs cs := by
  simp [skipWs, h]

theorem skipWs_cons_not_ws {c : Char} (h : isJsonWs c = false) (cs : List Char) :
    skipWs (c :: cs) = c :: cs := by
  simp [skipWs, h]

theorem skipWs_app {w : List Char} (hw : allWs w) (cs : List Char) :
    skipWs (w ++ cs) = skipWs cs := by
  induction w with
  | nil => rfl
  | cons c w ih =>
    rw [List.cons_append, skipWs_cons_ws (hw c (by simp)) _]
    exact ih (fun d hd => hw d (by simp [hd]))

theorem allWs_padChars (d : Nat) : allWs (padChars d) := by
  intro c hc
  rw [List.eq_of_mem_replicate hc]
  rfl

theorem allWs_newline_pad (d : Nat) : allWs ('\n' :: padChars d) := by
  intro c hc
  rcases List.mem_cons.mp hc with h | h
  · subst h; rfl
  · exact allWs_padChars d c h

theorem parseValue_wsPrefix (fuel : Nat) {w : List Char} (hw : allWs w) (cs : List Char) :
    parseValue fuel (w ++ cs) = parseValue fuel cs := by
  cases fuel with
  | zero => rfl
  | succ fuel => simp only [parseValue, skipWs_app hw cs]

theorem parseStringBody_escape : ∀ (l rest : List Char),
    parseStringBody ((l.map escapeChar).flatten ++ ('"' :: rest)) = some (l, rest) := by
  intro l
  induction l with
  | nil =>
    intro rest
    simp only [List.map_nil, List.flatten_nil, List.nil_append]
    rw [parseStringBody.eq_def]
    simp +decide
  | cons c l ih =>
    intro rest
    simp only [List.map_cons, List.flatten_cons, List.append_assoc]
    by_cases h1 : c = '"'
    · subst h1
      rw [show escapeChar '"' = ['\\', '"'] from rfl]
      rw [List.cons_append, List.cons_append, parseStringBody.eq_def]
      simp +decide [ih]
    · by_cases h2 : c = '\\'
      · subst h2
        rw [show escapeChar '\\' = ['\\', '\\'] from rfl]
        rw [List.cons_append, List.cons_append, parseStringBody.eq_def]
        simp +decide [ih]
      · by_cases h3 : c = '\n'
        · subst h3
          rw [show escapeChar '\n' = ['\\', 'n'] from rfl]
          rw [List.cons_append, List.cons_append, parseStringBody.eq_def]
          simp +decide [ih]
        · by_cases h4 : c = '\t'
          · subst h4
            rw [show escapeChar '\t' = ['\\', 't'] from rfl]
            rw [List.cons_append, List.cons_append, parseStringBody.eq_def]
            simp +decide [ih]
          · by_cases h5 : c = '\r'
            · subst h5
              rw [show escapeChar '\r' = ['\\', 'r'] from rfl]
              rw [List.cons_append, List.cons_append, parseStringBody.eq_def]
              simp +decide [ih]
            · by_cases h6 : c = '\x08'
              · subst h6
                rw [show escapeChar '\x08' = ['\\', 'b'] from rfl]
                rw [List.cons_append, List.cons_append, parseStringBody.eq_def]
                simp +decide [ih]
              · by_cases h7 : c = '\x0c'
                · subst h7
                  rw [show escapeChar '\x0c' = ['\\', 'f'] from rfl]
                  rw [List.cons_append, List.cons_append, parseStringBody.eq_def]
                  simp +decide [ih]
                · rw [show escapeChar c = [c] from by
                    simp [escapeChar, h1, h2, h3, h4, h5, h6, h7]]
                  rw [List.cons_append, parseStringBody.eq_def]
                  simp only [List.nil_append]
                  rw [if_neg h1, if_neg h2, ih]
                  rfl

/-! ## Lemmas: ordered field lists -/

theorem jfApp_nil : ∀ (fs : JFields), jfApp fs .nil = fs
  | .nil => rfl
  | .cons k v fs => by simp [jfApp, jfApp_nil fs]

theorem jfApp_assoc : ∀ (a b c : JFields), jfApp (jfApp a b) c = jfApp a (jfApp b c)
  | .nil, _, _ => rfl
  | .cons k v a, b, c => by simp [jfApp, jfApp_assoc a b c]

theorem keyMem_app : ∀ (a b : JFields) (k : String),
    keyMem (jfApp a b) k = (keyMem a k || keyMem b k)
  | .nil, b, k => by simp [jfApp, keyMem]
  | .cons k' v' a, b, k => by simp [jfApp, keyMem, keyMem_app a b k, Bool.or_assoc]

theorem setKey_absent : ∀ {fs : JFields} {k : String}, keyMem fs k = false →
    ∀ (v : JValue), setKey fs k v = jfApp fs (.cons k v .nil)
  | .nil, _, _, _ => rfl
  | .cons k' v' fs, k, h, v => by
    simp only [keyMem, Bool.or_eq_false_iff] at h
    simp only [setKey, jfApp]
    rw [if_neg (by simpa using h.1), setKey_absent h.2 v]

theorem nodupKeys_app_cons : ∀ {acc : JFields} {k : String} {v : JValue} {fs : JFields},
    nodupKeys (jfApp acc (.cons k v fs)) = true → keyMem acc k = false
  | .nil, _, _, _, _ => rfl
  | .cons k' v' acc, k, v, fs, h => by
    simp only [jfApp, nodupKeys, Bool.and_eq_true, Bool.not_eq_true'] at h
    have hk' : k' ≠ k := by
      intro hkk
      subst hkk
      rw [keyMem_app] at h
      simp [keyMem] at h
    simp only [keyMem, Bool.or_eq_false_iff]
    exact ⟨by simpa using hk', nodupKeys_app_cons h.2⟩

theorem foldFields_go : ∀ (fs : JFields) (acc : JFields),
    nodupKeys (jfApp acc fs) = true →
      (fieldsPairs fs).foldl (fun a p => setKey a p.1 p.2) acc = jfApp acc fs
  | .nil, acc, _ => by simp [fieldsPairs, jfApp_nil]
  | .cons k v fs, acc, h => by
    have hmem : keyMem acc k = false := nodupKeys_app_cons h
    simp only [fieldsPairs, List.foldl_cons]
    rw [setKey_absent hmem v]
    have hassoc : jfApp (jfApp acc (.cons k v .nil)) fs = jfApp acc (.cons k v fs) := by
      rw [jfApp_assoc]; rfl
    rw [foldFields_go fs (jfApp acc (.cons k v .nil)) (by rw [hassoc]; exact h), hassoc]

/-- Rebuilding the parsed pairs of a duplicate-free field list recovers it. -/
theorem foldFields_fieldsPairs {fs : JFields} (h : nodupKeys fs = true) :
    foldFields (fieldsPairs fs) = fs := by
  have := foldFields_go fs .nil (by simpa [jfApp] using h)
  simpa [foldFields, jfApp] using this

/-! ## Lemmas: serializer output shape -/

theorem stringMk_data : ∀ (s : String), String.mk s.data = s
  | ⟨_⟩ => rfl

theorem padChars_length (d : Nat) : (padChars d).length = 2 * d := by
  simp [padChars]

theorem isDigit_not_ws {c : Char} (h : c.isDigit = true) : isJsonWs c = false := by
  by_contra hw
  have hw' : isJsonWs c = true := by
    cases hq : isJsonWs c
    · exact absurd hq hw
    · rfl
  simp only [isJsonWs, Bool.or_eq_true, decide_eq_true_eq] at hw'
  rcases hw' with ((h1 | h1) | h1) | h1 <;> (subst h1; simp_all)

theorem isDigit_ne {c d : Char} (h : c.isDigit = true) (hd : d.isDigit = false) : ¬ c = d := by
  intro he
  subst he
  rw [h] at hd
  cases hd

theorem natToChars_head (m : Nat) :
    ∃ c cs, natToChars m = c :: cs ∧ c.isDigit = true := by
  cases hm : natToChars m with
  | nil => exact absurd hm (natToChars_ne_nil m)
  | cons c cs =>
    exact ⟨c, cs, rfl, natToChars_all_digits m c (by rw [hm]; simp)⟩

/-- Every serialized value starts with a character that is not whitespace
and not one of the structural delimiters a surrounding parser loop is
looking for. -/
theorem serChars_head (d : Nat) (v : JValue) :
    ∃ c cs, serChars d v = c :: cs ∧ isJsonWs c = false ∧
      c ≠ ']' ∧ c ≠ '\x7d' ∧ c ≠ ',' := by
  cases v with
  | null => exact ⟨'n', _, rfl, by decide, by decide, by decide, by decide⟩
  | bool b =>
    cases b with
    | true => exact ⟨'t', _, rfl, by decide, by decide, by decide, by decide⟩
    | false => exact ⟨'f', _, rfl, by decide, by decide, by decide, by decide⟩
  | num n =>
    cases n with
    | ofNat m =>
      obtain ⟨c, cs, hm, hc⟩ := natToChars_head m
      refine ⟨c, cs, ?_, isDigit_not_ws hc, isDigit_ne hc (by decide),
        isDigit_ne hc (by decide), isDigit_ne hc (by decide)⟩
      simpa [serChars, intToChars] using hm
    | negSucc m =>
      exact ⟨'-', _, rfl, by decide, by decide, by decide, by decide⟩
  | str s => exact ⟨'"', _, rfl, by decide, by decide, by decide, by decide⟩
  | arr xs =>
    cases xs with
    | nil => exact ⟨'[', _, rfl, by decide, by decide, by decide, by decide⟩
    | cons x xs => exact ⟨'[', _, rfl, by decide, by decide, by decide, by decide⟩
  | obj fs =>
    cases fs with
    | nil => exact ⟨'\x7b', _, rfl, by decide, by decide, by decide, by decide⟩
    | cons k v fs => exact ⟨'\x7b', _, rfl, by decide, by decide, by decide, by decide⟩

theorem serChars_length_pos (d : Nat) (v : JValue) : 0 < (serChars d v).length := by
  obtain ⟨c, cs, h, -⟩ := serChars_head d v
  simp [h]

theorem skipWs_serChars (d : Nat) (v : JValue) (y : List Char) :
    skipWs (serChars d v ++ y) = serChars d v ++ y := by
  obtain ⟨c, cs, h, hws, -⟩ := serChars_head d v
  rw [h, List.cons_append, skipWs_cons_not_ws hws]

/-! ## Round-trip: `JSON.parse` recovers every serialized value -/


theorem noDigitStart_nil : noDigitStart [] := trivial

theorem noDigitStart_cons {c : Char} {l : List Char} (h : c.isDigit = false) :
    noDigitStart (c :: l) := h

mutual

theorem rtVal : ∀ (v : JValue) (d : Nat) (rest : List Char) (fuel : Nat),
    wfVal v = true → (serChars d v).length + rest.length < fuel → noDigitStart rest →
    parseValue fuel (serChars d v ++ rest) = some (v, rest)
  | .null, d, rest, fuel, hwf, hf, hr => by
    obtain ⟨F, rfl⟩ : ∃ F, fuel = F + 1 :=
      ⟨fuel - 1, by have := serChars_length_pos d JValue.null; omega⟩
    simp only [serChars, List.cons_append, List.nil_append]
    simp +decide [parseValue, skipWs]
  | .bool b, d, rest, fuel, hwf, hf, hr => by
    obtain ⟨F, rfl⟩ : ∃ F, fuel = F + 1 :=
      ⟨fuel - 1, by have := serChars_length_pos d (JValue.bool b); omega⟩
    cases b with
    | true =>
      simp only [serChars, List.cons_append, List.nil_append]
      simp +decide [parseValue, skipWs]
    | false =>
      simp only [serChars, List.cons_append, List.nil_append]
      simp +decide [parseValue, skipWs]
  | .num n, d, rest, fuel, hwf, hf, hr => by
    obtain ⟨F, rfl⟩ : ∃ F, fuel = F + 1 :=
      ⟨fuel - 1, by have := serChars_length_pos d (JValue.num n); omega⟩
    cases n with
    | ofNat m =>
      obtain ⟨c, cs, hm, hc⟩ := natToChars_head m
      have hser : serChars d (.num (Int.ofNat m)) = c :: cs := by
        simpa [serChars, intToChars] using hm
      rw [hser, List.cons_append]
      simp only [parseValue, skipWs_cons_not_ws (isDigit_not_ws hc)]
      rw [if_neg (isDigit_ne hc (by decide)), if_neg (isDigit_ne hc (by decide)),
        if_neg (isDigit_ne hc (by decide)), if_neg (isDigit_ne hc (by decide)),
        if_neg (isDigit_ne hc (by decide)), if_pos hc]
      rw [parseDigits_natToChars m c cs rest hm hr]
      simp
    | negSucc m =>
      obtain ⟨c, cs, hm, hc⟩ := natToChars_head (m + 1)
      have hser : serChars d (.num (Int.negSucc m)) = '-' :: natToChars (m + 1) := rfl
      rw [hser, List.cons_append, hm, List.cons_append]
      simp only [parseValue, skipWs_cons_not_ws (by decide : isJsonWs '-' = false)]
      rw [if_neg (by decide : ¬ '-' = 'n'), if_neg (by decide : ¬ '-' = 't'),
        if_neg (by decide : ¬ '-' = 'f'), if_neg (by decide : ¬ '-' = '"')]
      simp only [if_true]
      rw [if_pos hc, parseDigits_natToChars (m + 1) c cs rest hm hr]
      simp [Int.negSucc_eq]
  | .str s, d, rest, fuel, hwf, hf, hr => by
    obtain ⟨F, rfl⟩ : ∃ F, fuel = F + 1 :=
      ⟨fuel - 1, by have := serChars_length_pos d (JValue.str s); omega⟩
    have hser : serChars d (.str s) = '"' :: (escChars s ++ ['"']) := rfl
    rw [hser, List.cons_append]
    simp only [parseValue, skipWs_cons_not_ws (by decide : isJsonWs '"' = false)]
    rw [if_neg (by decide : ¬ '"' = 'n'), if_neg (by decide : ¬ '"' = 't'),
      if_neg (by decide : ¬ '"' = 'f')]
    simp only [if_true]
    rw [List.append_assoc, List.singleton_append]
    simp only [escChars]
    rw [parseStringBody_escape s.data rest]
    simp [stringMk_data]
  | .arr .nil, d, rest, fuel, hwf, hf, hr => by
    obtain ⟨F, rfl⟩ : ∃ F, fuel = F + 1 :=
      ⟨fuel - 1, by have := serChars_length_pos d (JValue.arr .nil); omega⟩
    simp only [serChars, List.cons_append, List.nil_append]
    simp +decide [parseValue, skipWs]
  | .arr (.cons x xs), d, rest, fuel, hwf, hf, hr => by
    obtain ⟨F, rfl⟩ : ∃ F, fuel = F + 1 :=
      ⟨fuel - 1, by have := serChars_length_pos d (JValue.arr (.cons x xs)); omega⟩
    · have hwx : wfVal x = true ∧ wfElems xs = true := by
        simpa [wfVal, wfElems] using hwf
      have hser : serChars d (.arr (.cons x xs)) =
          '[' :: '\n' :: (padChars (d + 1) ++ (serChars (d + 1) x ++
            (serArrTail (d + 1) xs ++ ('\n' :: (padChars d ++ [']']))))) := rfl
      rw [hser]
      simp only [List.cons_append, List.append_assoc, List.singleton_append, List.nil_append]
      simp only [parseValue, skipWs_cons_not_ws (by decide : isJsonWs '[' = false)]
      rw [if_neg (by decide : ¬ '[' = 'n'), if_neg (by decide : ¬ '[' = 't'),
        if_neg (by decide : ¬ '[' = 'f'), if_neg (by decide : ¬ '[' = '"'),
        if_neg (by decide : ¬ '[' = '-'), if_neg (by decide : ¬ ('[').isDigit = true)]
      simp only [if_true]
      rw [skipWs_cons_ws (by decide : isJsonWs '\n' = true),
        skipWs_app (allWs_padChars (d + 1)), skipWs_serChars]
      obtain ⟨c, cs, hx, hxws, hxne, -, -⟩ := serChars_head (d + 1) x
      rw [hx, List.cons_append]
      simp only [if_neg hxne]
      rw [← List.cons_append, ← hx]
      have harr := rtArr x xs [] (d + 1) d rest F hwx.1 hwx.2
        (by intro c hc; cases hc)
        (by
          have hlen := hf
          simp only [hser, List.length_cons, List.length_append,
            padChars_length, List.length_singleton, List.nil_append] at hlen ⊢
          omega)
      simp only [List.nil_append] at harr
      rw [harr]
      rfl
  | .obj .nil, d, rest, fuel, hwf, hf, hr => by
    obtain ⟨F, rfl⟩ : ∃ F, fuel = F + 1 :=
      ⟨fuel - 1, by have := serChars_length_pos d (JValue.obj .nil); omega⟩
    simp only [serChars, List.cons_append, List.nil_append]
    simp +decide [parseValue, skipWs]
  | .obj (.cons k v fs), d, rest, fuel, hwf, hf, hr => by
    obtain ⟨F, rfl⟩ : ∃ F, fuel = F + 1 :=
      ⟨fuel - 1, by have := serChars_length_pos d (JValue.obj (.cons k v fs)); omega⟩
    · have hwx : (nodupKeys (.cons k v fs) = true) ∧ wfVal v = true ∧ wfFields fs = true := by
        simpa [wfVal, wfFields, Bool.and_assoc, and_assoc] using hwf
      have hser : serChars d (.obj (.cons k v fs)) =
          '\x7b' :: '\n' :: (padChars (d + 1) ++ (quoteChars k ++ (':' :: ' ' ::
            (serChars (d + 1) v ++
              (serObjTail (d + 1) fs ++ ('\n' :: (padChars d ++ ['\x7d']))))))) := rfl
      rw [hser]
      simp only [List.cons_append, List.append_assoc, List.singleton_append, List.nil_append]
      simp only [parseValue, skipWs_cons_not_ws (by decide : isJsonWs '\x7b' = false)]
      rw [if_neg (by decide : ¬ '\x7b' = 'n'), if_neg (by decide : ¬ '\x7b' = 't'),
        if_neg (by decide : ¬ '\x7b' = 'f'), if_neg (by decide : ¬ '\x7b' = '"'),
        if_neg (by decide : ¬ '\x7b' = '-'), if_neg (by decide : ¬ ('\x7b').isDigit = true),
        if_neg (by decide : ¬ '\x7b' = '[')]
      simp only [if_true]
      rw [skipWs_cons_ws (by decide : isJsonWs '\n' = true),
        skipWs_app (allWs_padChars (d + 1))]
      have hquote : quoteChars k ++ (':' :: ' ' ::
          (serChars (d + 1) v ++ (serObjTail (d + 1) fs ++
            ('\n' :: (padChars d ++ ('\x7d' :: rest)))))) =
          '"' :: (escChars k ++ ('"' :: (':' :: ' ' ::
            (serChars (d + 1) v ++ (serObjTail (d + 1) fs ++
              ('\n' :: (padChars d ++ ('\x7d' :: rest)))))))) := by
        simp [quoteChars, List.append_assoc]
      rw [hquote, skipWs_cons_not_ws (by decide : isJsonWs '"' = false)]
      simp only [if_neg (by decide : ¬ '"' = '\x7d')]
      rw [← hquote]
      have hobj := rtObj k v fs [] (d + 1) d rest F hwx.2.1 hwx.2.2
        (by intro c hc; cases hc)
        (by
          have hlen := hf
          simp only [hser, quoteChars, List.length_cons, List.length_append,
            padChars_length, List.length_singleton, List.nil_append] at hlen ⊢
          omega)
      simp only [List.nil_append] at hobj
      rw [hobj]
      have hff : foldFields ((k, v) :: fieldsPairs fs) = JFields.cons k v fs := by
        have := @foldFields_fieldsPairs (JFields.cons k v fs) hwx.1
        simpa [fieldsPairs] using this
      simp [hff]
termination_by v _ _ _ _ _ _ => sizeOf v
decreasing_by all_goals ((simp_wf; omega))

theorem rtArr : ∀ (x : JValue) (xs : JList) (w : List Char) (de dp : Nat)
    (rest : List Char) (fuel : Nat),
    wfVal x = true → wfElems xs = true → allWs w →
    (w ++ (serChars de x ++ (serArrTail de xs ++
      ('\n' :: (padChars dp ++ (']' :: rest)))))).length + 1 < fuel →
    parseArrayRest fuel (w ++ (serChars de x ++ (serArrTail de xs ++
      ('\n' :: (padChars dp ++ (']' :: rest)))))) = some (.cons x xs, rest)
  | x, .nil, w, de, dp, rest, fuel, hwx, hwxs, hw, hf => by
    obtain ⟨F, rfl⟩ : ∃ F, fuel = F + 1 := ⟨fuel - 1, by omega⟩
    simp only [parseArrayRest]
    have hpv : parseValue F (w ++ (serChars de x ++ (serArrTail de .nil ++
        ('\n' :: (padChars dp ++ (']' :: rest)))))) =
        some (x, serArrTail de .nil ++ ('\n' :: (padChars dp ++ (']' :: rest)))) := by
      rw [parseValue_wsPrefix F hw]
      exact rtVal x de _ F hwx
        (by
          have hlen := hf
          simp only [List.length_append, List.length_cons, padChars_length] at hlen ⊢
          omega) (noDigitStart_cons (by decide))
    rw [hpv]
    simp only [serArrTail, List.nil_append]
    rw [skipWs_cons_ws (by decide : isJsonWs '\n' = true),
      skipWs_app (allWs_padChars dp), skipWs_cons_not_ws (by decide : isJsonWs ']' = false)]
    simp +decide
  | x, .cons x2 xs2, w, de, dp, rest, fuel, hwx, hwxs, hw, hf => by
    obtain ⟨F, rfl⟩ : ∃ F, fuel = F + 1 := ⟨fuel - 1, by omega⟩
    simp only [parseArrayRest]
    have hpv : parseValue F (w ++ (serChars de x ++ (serArrTail de (.cons x2 xs2) ++
        ('\n' :: (padChars dp ++ (']' :: rest)))))) =
        some (x, serArrTail de (.cons x2 xs2) ++ ('\n' :: (padChars dp ++ (']' :: rest)))) := by
      rw [parseValue_wsPrefix F hw]
      exact rtVal x de _ F hwx
        (by
          have hlen := hf
          simp only [List.length_append, List.length_cons, padChars_length] at hlen ⊢
          omega) (noDigitStart_cons (by decide))
    rw [hpv]
    have hw2 : wfVal x2 = true ∧ wfElems xs2 = true := by
      simpa [wfElems] using hwxs
    have htail : serArrTail de (.cons x2 xs2) =
        ',' :: '\n' :: (padChars de ++ (serChars de x2 ++ serArrTail de xs2)) := rfl
    rw [htail]
    simp only [List.cons_append, List.append_assoc]
    rw [skipWs_cons_not_ws (by decide : isJsonWs ',' = false)]
    simp only [if_true]
    have harr := rtArr x2 xs2 ('\n' :: padChars de) de dp rest F hw2.1 hw2.2
      (allWs_newline_pad de)
      (by
        have hlen := hf
        have hx1 := serChars_length_pos de x
        simp only [htail, List.length_append, List.length_cons, padChars_length] at hlen ⊢
        omega)
    have hshape : ('\n' :: padChars de) ++ (serChars de x2 ++ (serArrTail de xs2 ++
        ('\n' :: (padChars dp ++ (']' :: rest))))) =
        '\n' :: (padChars de ++ (serChars de x2 ++ (serArrTail de xs2 ++
          ('\n' :: (padChars dp ++ (']' :: rest)))))) := by
      simp [List.cons_append, List.append_assoc]
    rw [hshape] at harr
    rw [harr]
termination_by x xs _ _ _ _ _ _ _ _ _ => sizeOf x + sizeOf xs + 1
decreasing_by all_goals ((simp_wf; omega))

theorem rtObj : ∀ (k : String) (v : JValue) (fs : JFields) (w : List Char) (de dp : Nat)
    (rest : List Char) (fuel : Nat),
    wfVal v = true → wfFields fs = true → allWs w →
    (w ++ (quoteChars k ++ (':' :: ' ' :: (serChars de v ++ (serObjTail de fs ++
      ('\n' :: (padChars dp ++ ('\x7d' :: rest)))))))).length + 1 < fuel →
    parseObjRest fuel (w ++ (quoteChars k ++ (':' :: ' ' :: (serChars de v ++
      (serObjTail de fs ++ ('\n' :: (padChars dp ++ ('\x7d' :: rest)))))))) =
      some ((k, v) :: fieldsPairs fs, rest)
  | k, v, .nil, w, de, dp, rest, fuel, hwv, hwfs, hw, hf => by
    obtain ⟨F, rfl⟩ : ∃ F, fuel = F + 1 := ⟨fuel - 1, by omega⟩
    simp only [parseObjRest]
    rw [skipWs_app hw]
    have hquote : quoteChars k ++ (':' :: ' ' :: (serChars de v ++ (serObjTail de .nil ++
        ('\n' :: (padChars dp ++ ('\x7d' :: rest)))))) =
        '"' :: (escChars k ++ ('"' :: (':' :: ' ' :: (serChars de v ++ (serObjTail de .nil ++
          ('\n' :: (padChars dp ++ ('\x7d' :: rest)))))))) := by
      simp [quoteChars, List.append_assoc]
    rw [hquote, skipWs_cons_not_ws (by decide : isJsonWs '"' = false)]
    simp only [if_true]
    simp only [escChars]
    rw [parseStringBody_escape k.data]
    simp only [skipWs_cons_not_ws (by decide : isJsonWs ':' = false)]
    simp only [if_true]
    have hpv : parseValue F (' ' :: (serChars de v ++ (serObjTail de .nil ++
        ('\n' :: (padChars dp ++ ('\x7d' :: rest)))))) =
        some (v, serObjTail de .nil ++ ('\n' :: (padChars dp ++ ('\x7d' :: rest)))) := by
      rw [show (' ' :: (serChars de v ++ (serObjTail de .nil ++
          ('\n' :: (padChars dp ++ ('\x7d' :: rest)))))) =
          [' '] ++ (serChars de v ++ (serObjTail de .nil ++
            ('\n' :: (padChars dp ++ ('\x7d' :: rest))))) from rfl]
      rw [parseValue_wsPrefix F (by intro c hc; simp at hc; subst hc; rfl)]
      exact rtVal v de _ F hwv
        (by
          have hlen := hf
          simp only [quoteChars, List.length_append, List.length_cons, padChars_length] at hlen ⊢
          omega) (noDigitStart_cons (by decide))
    rw [hpv]
    simp only [serObjTail, List.nil_append]
    rw [skipWs_cons_ws (by decide : isJsonWs '\n' = true),
      skipWs_app (allWs_padChars dp), skipWs_cons_not_ws (by decide : isJsonWs '\x7d' = false)]
    simp +decide [stringMk_data, fieldsPairs]
  | k, v, .cons k2 v2 fs2, w, de, dp, rest, fuel, hwv, hwfs, hw, hf => by
    obtain ⟨F, rfl⟩ : ∃ F, fuel = F + 1 := ⟨fuel - 1, by omega⟩
    simp only [parseObjRest]
    rw [skipWs_app hw]
    have hquote : quoteChars k ++ (':' :: ' ' :: (serChars de v ++
        (serObjTail de (.cons k2 v2 fs2) ++
          ('\n' :: (padChars dp ++ ('\x7d' :: rest)))))) =
        '"' :: (escChars k ++ ('"' :: (':' :: ' ' :: (serChars de v ++
          (serObjTail de (.cons k2 v2 fs2) ++
            ('\n' :: (padChars dp ++ ('\x7d' :: rest)))))))) := by
      simp [quoteChars, List.append_assoc]
    rw [hquote, skipWs_cons_not_ws (by decide : isJsonWs '"' = false)]
    simp only [if_true]
    simp only [escChars]
    rw [parseStringBody_escape k.data]
    simp only [skipWs_cons_not_ws (by decide : isJsonWs ':' = false)]
    simp only [if_true]
    have hpv : parseValue F (' ' :: (serChars de v ++ (serObjTail de (.cons k2 v2 fs2) ++
        ('\n' :: (padChars dp ++ ('\x7d' :: rest)))))) =
        some (v, serObjTail de (.cons k2 v2 fs2) ++
          ('\n' :: (padChars dp ++ ('\x7d' :: rest)))) := by
      rw [show (' ' :: (serChars de v ++ (serObjTail de (.cons k2 v2 fs2) ++
          ('\n' :: (padChars dp ++ ('\x7d' :: rest)))))) =
          [' '] ++ (serChars de v ++ (serObjTail de (.cons k2 v2 fs2) ++
            ('\n' :: (padChars dp ++ ('\x7d' :: rest))))) from rfl]
      rw [parseValue_wsPrefix F (by intro c hc; simp at hc; subst hc; rfl)]
      exact rtVal v de _ F hwv
        (by
          have hlen := hf
          simp only [quoteChars, List.length_append, List.length_cons, padChars_length] at hlen ⊢
          omega) (noDigitStart_cons (by decide))
    rw [hpv]
    have hw2 : wfVal v2 = true ∧ wfFields fs2 = true := by
      simpa [wfFields] using hwfs
    have htail : serObjTail de (.cons k2 v2 fs2) =
        ',' :: '\n' :: (padChars de ++ (quoteChars k2 ++ (':' :: ' ' ::
          (serChars de v2 ++ serObjTail de fs2)))) := rfl
    rw [htail]
    simp only [List.cons_append, List.append_assoc]
    rw [skipWs_cons_not_ws (by decide : isJsonWs ',' = false)]
    simp only [if_true]
    have hobj := rtObj k2 v2 fs2 ('\n' :: padChars de) de dp rest F hw2.1 hw2.2
      (allWs_newline_pad de)
      (by
        have hlen := hf
        have hv1 := serChars_length_pos de v
        simp only [htail, quoteChars, List.length_append, List.length_cons,
          padChars_length] at hlen ⊢
        omega)
    have hshape : ('\n' :: padChars de) ++ (quoteChars k2 ++ (':' :: ' ' ::
        (serChars de v2 ++ (serObjTail de fs2 ++
          ('\n' :: (padChars dp ++ ('\x7d' :: rest))))))) =
        '\n' :: (padChars de ++ (quoteChars k2 ++ (':' :: ' ' ::
          (serChars de v2 ++ (serObjTail de fs2 ++
            ('\n' :: (padChars dp ++ ('\x7d' :: rest)))))))) := by
      simp [List.cons_append, List.append_assoc]
    rw [hshape] at hobj
    rw [hobj]
    simp [stringMk_data, fieldsPairs]
termination_by _ v fs _ _ _ _ _ _ _ _ _ => sizeOf v + sizeOf fs + 1
decreasing_by all_goals ((simp_wf; omega))

end

/-- `JSON.parse (JSON.stringify v)` recovers `v` for every duplicate-free
value (and in particular for every value the save algorithm produces). -/
theorem parseJson_stringify {v : JValue} (hwf : wfVal v = true) :
    parseJson (stringify v) = some v := by
  have h := rtVal v 0 [] ((serChars 0 v).length + 1) hwf (by simp) trivial
  simp only [List.append_nil] at h
  unfold parseJson
  rw [show (stringify v).data = serChars 0 v from rfl]
  rw [h]
  rfl

/-! ## Lemmas: field and element operations -/

theorem keyMem_setKey : ∀ (fs : JFields) (k : String) (v : JValue) (q : String),
    keyMem (setKey fs k v) q = (keyMem fs q || decide (k = q))
  | .nil, k, v, q => by simp [setKey, keyMem]
  | .cons k' v' fs, k, v, q => by
    by_cases hk : k' = k
    · subst hk
      simp only [setKey, if_pos rfl, keyMem]
      cases hq : decide (k' = q) <;> simp [hq]
  -- the remaining case, k' ≠ k, pushes the update into the tail
    · simp only [setKey, if_neg hk, keyMem, keyMem_setKey fs k v q]
      cases hq : decide (k' = q) <;> simp [Bool.or_assoc]

theorem nodup_setKey : ∀ {fs : JFields} (k : String) (v : JValue),
    nodupKeys fs = true → nodupKeys (setKey fs k v) = true
  | .nil, k, v, _ => by simp [setKey, nodupKeys, keyMem]
  | .cons k' v' fs, k, v, h => by
    simp only [nodupKeys, Bool.and_eq_true, Bool.not_eq_true'] at h
    by_cases hk : k' = k
    · subst hk
      simp only [setKey, if_pos rfl, nodupKeys, Bool.and_eq_true, Bool.not_eq_true']
      exact h
    · simp only [setKey, if_neg hk, nodupKeys, Bool.and_eq_true, Bool.not_eq_true']
      refine ⟨?_, nodup_setKey k v h.2⟩
      rw [keyMem_setKey]
      have hkk : (k = k') = False := eq_false (fun hh => hk hh.symm)
      simp [h.1, hkk]

theorem keyMem_delKey : ∀ (fs : JFields) (k q : String),
    keyMem (delKey fs k) q = (keyMem fs q && !decide (k = q))
  | .nil, k, q => by simp [delKey, keyMem]
  | .cons k' v' fs, k, q => by
    by_cases hk : k' = k
    · subst hk
      rw [show delKey (JFields.cons k' v' fs) k' = delKey fs k' from by simp [delKey]]
      rw [keyMem_delKey fs k' q]
      simp only [keyMem]
      by_cases hq : k' = q
      · subst hq; simp
      · have h1 : (k' = q) = False := eq_false hq
        simp [h1]
    · simp only [delKey, if_neg hk, keyMem, keyMem_delKey fs k q]
      by_cases hq : k = q
      · subst hq
        have h1 : (k' = k) = False := eq_false hk
        simp [h1]
      · have h1 : (k = q) = False := eq_false hq
        simp [h1]

theorem nodup_delKey : ∀ {fs : JFields} (k : String),
    nodupKeys fs = true → nodupKeys (delKey fs k) = true
  | .nil, k, _ => by simp [delKey, nodupKeys]
  | .cons k' v' fs, k, h => by
    simp only [nodupKeys, Bool.and_eq_true, Bool.not_eq_true'] at h
    by_cases hk : k' = k
    · simp only [delKey, if_pos hk]
      exact nodup_delKey k h.2
    · simp only [delKey, if_neg hk, nodupKeys, Bool.and_eq_true, Bool.not_eq_true']
      refine ⟨?_, nodup_delKey k h.2⟩
      rw [keyMem_delKey]
      simp [h.1]

theorem lookupKey_setKey_self : ∀ (fs : JFields) (k : String) (v : JValue),
    lookupKey (setKey fs k v) k = some v
  | .nil, k, v => by simp [setKey, lookupKey]
  | .cons k' v' fs, k, v => by
    by_cases hk : k' = k
    · subst hk; simp [setKey, lookupKey]
    · simp [setKey, hk, lookupKey, lookupKey_setKey_self fs k v]

theorem lookupKey_setKey_other : ∀ (fs : JFields) (k : String) (v : JValue) (q : String),
    q ≠ k → lookupKey (setKey fs k v) q = lookupKey fs q
  | .nil, k, v, q, hq => by
    simp only [setKey, lookupKey]
    rw [if_neg (fun h => hq h.symm)]
  | .cons k' v' fs, k, v, q, hq => by
    by_cases hk : k' = k
    · subst hk
      simp only [setKey, if_pos rfl, lookupKey]
      rw [if_neg (fun h => hq h.symm), if_neg (fun h => hq h.symm)]
    · simp only [setKey, if_neg hk, lookupKey]
      by_cases hq' : k' = q
      · simp [hq']
      · simp [hq', lookupKey_setKey_other fs k v q hq]

theorem lookupKey_delKey_self : ∀ (fs : JFields) (k : String),
    lookupKey (delKey fs k) k = none
  | .nil, k => rfl
  | .cons k' v' fs, k => by
    by_cases hk : k' = k
    · simp [delKey, hk, lookupKey_delKey_self fs k]
    · simp [delKey, hk, lookupKey, lookupKey_delKey_self fs k]

theorem lookupKey_delKey_other : ∀ (fs : JFields) (k q : String),
    q ≠ k → lookupKey (delKey fs k) q = lookupKey fs q
  | .nil, k, q, _ => rfl
  | .cons k' v' fs, k, q, hq => by
    by_cases hk : k' = k
    · simp only [delKey, if_pos hk, lookupKey]
      rw [lookupKey_delKey_other fs k q hq, if_neg (fun h => hq (h.symm.trans hk))]
    · simp only [delKey, if_neg hk, lookupKey]
      by_cases hq' : k' = q
      · simp [hq']
      · simp [hq', lookupKey_delKey_other fs k q hq]

theorem setKey_lookup_id : ∀ {fs : JFields} {k : String} {v : JValue},
    lookupKey fs k = some v → setKey fs k v = fs
  | .nil, k, v, h => by simp [lookupKey] at h
  | .cons k' v' fs, k, v, h => by
    by_cases hk : k' = k
    · subst hk
      simp [lookupKey] at h
      simp [setKey, h]
    · simp only [lookupKey, if_neg hk] at h
      simp [setKey, hk, setKey_lookup_id h]

theorem jlGet_set_id : ∀ {xs : JList} {n : Nat} {u : JValue},
    jlGet xs n = some u → jlSet xs n u = xs
  | .nil, n, u, h => by simp [jlGet] at h
  | .cons x xs, 0, u, h => by
    simp only [jlGet, Option.some.injEq] at h
    simp [jlSet, h]
  | .cons x xs, n+1, u, h => by
    simp only [jlGet] at h
    simp [jlSet, jlGet_set_id h]

/-! ## Lemmas: well-formedness preservation -/

theorem lookup_wf : ∀ {fs : JFields} {k : String} {v : JValue},
    wfFields fs = true → lookupKey fs k = some v → wfVal v = true
  | .nil, k, v, _, h => by simp [lookupKey] at h
  | .cons k' v' fs, k, v, hwf, h => by
    simp only [wfFields, Bool.and_eq_true] at hwf
    by_cases hk : k' = k
    · rw [show lookupKey (JFields.cons k' v' fs) k = some v' from by
        simp [lookupKey, hk]] at h
      cases h
      exact hwf.1
    · simp only [lookupKey, if_neg hk] at h
      exact lookup_wf hwf.2 h

theorem jlGet_wf : ∀ {xs : JList} {n : Nat} {u : JValue},
    wfElems xs = true → jlGet xs n = some u → wfVal u = true
  | .nil, n, u, _, h => by simp [jlGet] at h
  | .cons x xs, 0, u, hwf, h => by
    simp only [wfElems, Bool.and_eq_true] at hwf
    simp only [jlGet] at h
    cases h
    exact hwf.1
  | .cons x xs, n+1, u, hwf, h => by
    simp only [wfElems, Bool.and_eq_true] at hwf
    simp only [jlGet] at h
    exact jlGet_wf hwf.2 h

theorem setKey_wfFields : ∀ {fs : JFields} {k : String} {v : JValue},
    wfFields fs = true → wfVal v = true → wfFields (setKey fs k v) = true
  | .nil, k, v, _, hv => by simp [setKey, wfFields, hv]
  | .cons k' v' fs, k, v, hwf, hv => by
    simp only [wfFields, Bool.and_eq_true] at hwf
    by_cases hk : k' = k
    · simp [setKey, hk, wfFields, hv, hwf.2]
    · simp [setKey, hk, wfFields, hwf.1, setKey_wfFields hwf.2 hv]

theorem delKey_wfFields : ∀ {fs : JFields} (k : String),
    wfFields fs = true → wfFields (delKey fs k) = true
  | .nil, k, _ => by simp [delKey, wfFields]
  | .cons k' v' fs, k, hwf => by
    simp only [wfFields, Bool.and_eq_true] at hwf
    by_cases hk : k' = k
    · simp [delKey, hk, delKey_wfFields k hwf.2]
    · simp [delKey, hk, wfFields, hwf.1, delKey_wfFields k hwf.2]

theorem jlSet_wfElems : ∀ {xs : JList} {n : Nat} {v : JValue},
    wfElems xs = true → wfVal v = true → wfElems (jlSet xs n v) = true
  | .nil, n, v, h, _ => by simpa [jlSet] using h
  | .cons x xs, 0, v, hwf, hv => by
    simp only [wfElems, Bool.and_eq_true] at hwf
    simp [jlSet, wfElems, hv, hwf.2]
  | .cons x xs, n+1, v, hwf, hv => by
    simp only [wfElems, Bool.and_eq_true] at hwf
    simp [jlSet, wfElems, hwf.1, jlSet_wfElems hwf.2 hv]

theorem jlSetPad_wfElems : ∀ {xs : JList} {n : Nat} {v : JValue},
    wfElems xs = true → wfVal v = true → wfElems (jlSetPad xs n v) = true
  | .nil, 0, v, _, hv => by simp [jlSetPad, wfElems, hv, wfVal]
  | .nil, n+1, v, h, hv => by
    simp [jlSetPad, wfElems, wfVal, @jlSetPad_wfElems JList.nil n v h hv]
  | .cons x xs, 0, v, hwf, hv => by
    simp only [wfElems, Bool.and_eq_true] at hwf
    simp [jlSetPad, wfElems, hv, hwf.2]
  | .cons x xs, n+1, v, hwf, hv => by
    simp only [wfElems, Bool.and_eq_true] at hwf
    simp [jlSetPad, wfElems, hwf.1, jlSetPad_wfElems hwf.2 hv]

theorem convert_wf (ty s : String) : wfVal (convertValueByType ty s) = true := by
  unfold convertValueByType
  split_ifs <;> try rfl
  · cases jsNumber s <;> rfl

theorem writeKeyJs_wf {t : JValue} {k : String} {v t' : JValue}
    (hwt : wfVal t = true) (hv : wfVal v = true)
    (h : writeKeyJs t k v = some t') : wfVal t' = true := by
  cases t with
  | obj fs =>
    simp only [writeKeyJs, Option.some.injEq] at h
    subst h
    simp only [wfVal, Bool.and_eq_true] at hwt ⊢
    exact ⟨nodup_setKey k v hwt.1, setKey_wfFields hwt.2 hv⟩
  | arr xs =>
    simp only [writeKeyJs, Option.some.injEq] at h
    subst h
    simp only [wfVal] at hwt ⊢
    cases toArrayIndex k with
    | some i => exact jlSetPad_wfElems hwt hv
    | none => exact hwt
  | null => simp [writeKeyJs] at h
  | bool b => simp [writeKeyJs] at h
  | num n => simp [writeKeyJs] at h
  | str s => simp [writeKeyJs] at h

theorem deleteKeyJs_wf {t : JValue} {k : String} {t' : JValue}
    (hwt : wfVal t = true) (h : deleteKeyJs t k = some t') : wfVal t' = true := by
  cases t with
  | obj fs =>
    simp only [deleteKeyJs, Option.some.injEq] at h
    subst h
    simp only [wfVal, Bool.and_eq_true] at hwt ⊢
    exact ⟨nodup_delKey k hwt.1, delKey_wfFields k hwt.2⟩
  | arr xs =>
    simp only [deleteKeyJs, Option.some.injEq] at h
    subst h
    simp only [wfVal] at hwt ⊢
    cases toArrayIndex k with
    | some i =>
      by_cases hi : i < jlLength xs
      · simp only [if_pos hi]
        exact jlSet_wfElems hwt rfl
      · simp only [if_neg hi]
        exact hwt
    | none => exact hwt
  | null => cases h; exact hwt
  | bool b => cases h; exact hwt
  | num n => cases h; exact hwt
  | str s => cases h; exact hwt

theorem applyRow_wf {origRows : List NodeRow} {idx : Nat} {t : JValue} {r : NodeRow}
    {t' : JValue} (hwt : wfVal t = true) (h : applyRow origRows idx t r = some t') :
    wfVal t' = true := by
  unfold applyRow at h
  by_cases hk : r.key = ""
  · rw [if_pos hk] at h
    cases h
    exact hwt
  · rw [if_neg hk] at h
    simp only [] at h
    rcases hd : (match origRows.get? idx with
      | some o => if o.key ≠ "" ∧ o.key ≠ r.key then deleteKeyJs t o.key else some t
      | none => some t) with _ | t1
    · rw [hd] at h
      cases h
    · rw [hd] at h
      have hwt1 : wfVal t1 = true := by
        rcases ho : origRows.get? idx with _ | o
        · rw [ho] at hd
          cases hd
          exact hwt
        · rw [ho] at hd
          have hd' : (if o.key ≠ "" ∧ o.key ≠ r.key then deleteKeyJs t o.key
              else some t) = some t1 := hd
          by_cases hcond : o.key ≠ "" ∧ o.key ≠ r.key
          · rw [if_pos hcond] at hd'
            exact deleteKeyJs_wf hwt hd'
          · rw [if_neg hcond] at hd'
            cases hd'
            exact hwt
      exact writeKeyJs_wf hwt1 (convert_wf _ _) h

theorem applyRowsFrom_wf : ∀ {rows : List NodeRow} {origRows : List NodeRow} {idx : Nat}
    {t t' : JValue}, wfVal t = true → applyRowsFrom origRows idx t rows = some t' →
    wfVal t' = true
  | [], _, _, t, t', hwt, h => by
    cases h
    exact hwt
  | r :: rest, origRows, idx, t, t', hwt, h => by
    simp only [applyRowsFrom] at h
    rcases ha : applyRow origRows idx t r with _ | t1
    · rw [ha] at h
      cases h
    · rw [ha] at h
      exact applyRowsFrom_wf (applyRow_wf hwt ha) h

theorem applyRows_wf {origRows rows : List NodeRow} {t t' : JValue}
    (hwt : wfVal t = true) (h : applyRows origRows rows t = some t') : wfVal t' = true :=
  applyRowsFrom_wf hwt h

theorem jsIndex_wf {a : JValue} {s : Seg} {u : JValue}
    (hwa : wfVal a = true) (h : jsIndex a s = some u) : wfVal u = true := by
  cases a with
  | obj fs =>
    simp only [wfVal, Bool.and_eq_true] at hwa
    cases s with
    | key q => exact lookup_wf hwa.2 h
    | idx n => exact lookup_wf hwa.2 h
  | arr xs =>
    simp only [wfVal] at hwa
    cases s with
    | idx n => exact jlGet_wf hwa h
    | key q =>
      simp only [jsIndex] at h
      rcases ht : toArrayIndex q with _ | i
      · rw [ht] at h
        cases h
      · rw [ht] at h
        exact jlGet_wf hwa h
  | str t =>
    cases s with
    | idx n =>
      simp only [jsIndex] at h
      rcases hg : t.data.get? n with _ | c
      · rw [hg] at h
        cases h
      · rw [hg] at h
        cases h
        rfl
    | key q =>
      simp only [jsIndex] at h
      rcases ht : toArrayIndex q with _ | i
      · rw [ht] at h
        cases h
      · rw [ht] at h
        have h' : (t.data.get? i).map (fun c => JValue.str (String.mk [c])) = some u := h
        rcases hg : t.data.get? i with _ | c
        · rw [hg] at h'
          cases h'
        · rw [hg] at h'
          cases h'
          rfl
  | null => cases s <;> simp [jsIndex] at h
  | bool b => cases s <;> simp [jsIndex] at h
  | num n => cases s <;> simp [jsIndex] at h

theorem resolveSteps_none : ∀ (p : List Seg), resolveSteps none p = none
  | [] => rfl
  | _ :: p => resolveSteps_none p

theorem resolveSteps_wf : ∀ (p : List Seg) {doc v : JValue},
    wfVal doc = true → resolveSteps (some doc) p = some v → wfVal v = true
  | [], doc, v, hwd, h => by
    cases h
    exact hwd
  | seg :: p, doc, v, hwd, h => by
    simp only [resolveSteps] at h
    by_cases ht : truthy doc = true
    · rw [if_pos ht] at h
      rcases hj : jsIndex doc seg with _ | u
      · rw [hj, resolveSteps_none p] at h
        cases h
      · rw [hj] at h
        exact resolveSteps_wf p (jsIndex_wf hwd hj) h
    · rw [if_neg ht, resolveSteps_none p] at h
      cases h

theorem resolveTarget_wf {doc : JValue} (path : List Seg) (hwd : wfVal doc = true) :
    wfVal (resolveTarget doc path) = true := by
  unfold resolveTarget
  by_cases hp : path = []
  · simp [hp, hwd]
  · rw [if_neg hp]
    rcases hr : resolveSteps (some doc) path with _ | v
    · exact hwd
    · by_cases hv : v = .null
      · simp [hv, hwd]
      · simp [hv]
        exact resolveSteps_wf path hwd hr

theorem updatePath_nil (doc nv : JValue) : updatePath doc [] nv = nv := by
  cases doc <;> rfl

theorem updatePath_wf : ∀ (p : List Seg) {doc nv : JValue},
    wfVal doc = true → wfVal nv = true → wfVal (updatePath doc p nv) = true
  | [], doc, nv, _, hnv => by rw [updatePath_nil]; exact hnv
  | seg :: p, doc, nv, hwd, hnv => by
    cases doc with
    | obj fs =>
      simp only [wfVal, Bool.and_eq_true] at hwd
      cases seg with
      | key k =>
        simp only [updatePath]
        rcases hl : lookupKey fs k with _ | u
        · simp [wfVal, hwd.1, hwd.2]
        · simp only [wfVal, Bool.and_eq_true]
          refine ⟨nodup_setKey _ _ hwd.1,
            setKey_wfFields hwd.2 (updatePath_wf p (lookup_wf hwd.2 hl) hnv)⟩
      | idx n =>
        simp only [updatePath]
        rcases hl : lookupKey fs (natKey n) with _ | u
        · simp [wfVal, hwd.1, hwd.2]
        · simp only [wfVal, Bool.and_eq_true]
          refine ⟨nodup_setKey _ _ hwd.1,
            setKey_wfFields hwd.2 (updatePath_wf p (lookup_wf hwd.2 hl) hnv)⟩
    | arr xs =>
      simp only [wfVal] at hwd
      cases seg with
      | idx n =>
        simp only [updatePath]
        rcases hg : jlGet xs n with _ | u
        · simpa [wfVal] using hwd
        · simp only [wfVal]
          exact jlSet_wfElems hwd (updatePath_wf p (jlGet_wf hwd hg) hnv)
      | key s =>
        simp only [updatePath]
        rcases ht : toArrayIndex s with _ | i
        · simpa [wfVal] using hwd
        · rcases hg : jlGet xs i with _ | u
          · simpa [hg, wfVal] using hwd
          · simp only [hg, wfVal]
            exact jlSet_wfElems hwd (updatePath_wf p (jlGet_wf hwd hg) hnv)
    | null => exact hwd
    | bool b => exact hwd
    | num n => exact hwd
    | str s => exact hwd

/-- Writing back the value the resolution chain found leaves the document
unchanged: the pure counterpart of "no mutation happened". -/
theorem updatePath_resolve_id : ∀ (p : List Seg) {doc v : JValue},
    resolveSteps (some doc) p = some v → updatePath doc p v = doc
  | [], doc, v, h => by
    cases h
    rw [updatePath_nil]
  | seg :: p, doc, v, h => by
    simp only [resolveSteps] at h
    by_cases ht : truthy doc = true
    · rw [if_pos ht] at h
      rcases hj : jsIndex doc seg with _ | u
      · rw [hj, resolveSteps_none p] at h
        cases h
      · rw [hj] at h
        have hid := updatePath_resolve_id p h
        cases doc with
        | obj fs =>
          cases seg with
          | key k =>
            simp only [jsIndex] at hj
            simp only [updatePath, hj, hid]
            rw [setKey_lookup_id hj]
          | idx n =>
            simp only [jsIndex] at hj
            simp only [updatePath, hj, hid]
            rw [setKey_lookup_id hj]
        | arr xs =>
          cases seg with
          | idx n =>
            simp only [jsIndex] at hj
            simp only [updatePath, hj, hid]
            rw [jlGet_set_id hj]
          | key s =>
            simp only [jsIndex] at hj
            rcases hti : toArrayIndex s with _ | i
            · rw [hti] at hj
              cases hj
            · rw [hti] at hj
              have hj' : jlGet xs i = some u := hj
              simp only [updatePath, hti]
              rw [hj']
              show JValue.arr (jlSet xs i (updatePath u p v)) = JValue.arr xs
              rw [hid, jlGet_set_id hj']
        | str t =>
          simp only [updatePath]
        | null => simp [truthy] at ht
        | bool b => rfl
        | num n => rfl
    · rw [if_neg ht, resolveSteps_none p] at h
      cases h

/-! ## Lemmas: everything the parser accepts is duplicate-free -/

theorem nodup_foldFieldsAux : ∀ (ps : List (String × JValue)) (acc : JFields),
    nodupKeys acc = true →
    nodupKeys (ps.foldl (fun a p => setKey a p.1 p.2) acc) = true
  | [], acc, h => h
  | p :: ps, acc, h =>
    nodup_foldFieldsAux ps (setKey acc p.1 p.2) (nodup_setKey p.1 p.2 h)

theorem wfFields_foldFieldsAux : ∀ (ps : List (String × JValue)) (acc : JFields),
    (∀ p ∈ ps, wfVal p.2 = true) → wfFields acc = true →
    wfFields (ps.foldl (fun a p => setKey a p.1 p.2) acc) = true
  | [], acc, _, h => h
  | p :: ps, acc, hall, h =>
    wfFields_foldFieldsAux ps (setKey acc p.1 p.2)
      (fun q hq => hall q (by simp [hq]))
      (setKey_wfFields h (hall p (by simp)))

theorem wf_obj_foldFields (ps : List (String × JValue))
    (hall : ∀ p ∈ ps, wfVal p.2 = true) : wfVal (.obj (foldFields ps)) = true := by
  show (nodupKeys (foldFields ps) && wfFields (foldFields ps)) = true
  rw [Bool.and_eq_true]
  exact ⟨nodup_foldFieldsAux ps .nil rfl, wfFields_foldFieldsAux ps .nil hall rfl⟩

mutual

theorem pwVal : ∀ (fuel : Nat) (cs : List Char) (v : JValue) (r : List Char),
    parseValue fuel cs = some (v, r) → wfVal v = true
  | 0, cs, v, r, h => by simp [parseValue] at h
  | fuel+1, cs, v, r, h => by
    simp only [parseValue] at h
    rcases hsk : skipWs cs with _ | ⟨c, rest⟩ <;> simp only [hsk] at h
    · cases h
    · split_ifs at h with h1 h2 h3 h4 h5 h6 h7 h8
      · split at h
        · cases h; rfl
        · cases h
      · split at h
        · cases h; rfl
        · cases h
      · split at h
        · cases h; rfl
        · cases h
      · rcases hp : parseStringBody rest with _ | ⟨chars, r'⟩ <;> simp only [hp] at h
        · cases h
        · simp only [Option.map_some'] at h
          cases h
          rfl
      · split at h
        · cases h
        · split_ifs at h with hd
          · cases h; rfl
      · cases h; rfl
      · rcases hsk2 : skipWs rest with _ | ⟨c2, rest2⟩ <;> simp only [hsk2] at h
        · cases h
        · split_ifs at h with hc2
          · cases h; rfl
          · rcases hp : parseArrayRest fuel (c2 :: rest2) with _ | ⟨xs, r'⟩ <;> simp only [hp] at h
            · cases h
            · simp only [Option.map_some'] at h
              cases h
              exact pwArr fuel _ _ _ hp
      · rcases hsk2 : skipWs rest with _ | ⟨c2, rest2⟩ <;> simp only [hsk2] at h
        · cases h
        · split_ifs at h with hc2
          · cases h; rfl
          · rcases hp : parseObjRest fuel (c2 :: rest2) with _ | ⟨ps, r'⟩ <;> simp only [hp] at h
            · cases h
            · simp only [Option.map_some'] at h
              cases h
              exact wf_obj_foldFields ps (pwObj fuel _ _ _ hp)

theorem pwArr : ∀ (fuel : Nat) (cs : List Char) (xs : JList) (r : List Char),
    parseArrayRest fuel cs = some (xs, r) → wfElems xs = true
  | 0, cs, xs, r, h => by simp [parseArrayRest] at h
  | fuel+1, cs, xs, r, h => by
    simp only [parseArrayRest] at h
    rcases hp : parseValue fuel cs with _ | ⟨v1, cs1⟩ <;> simp only [hp] at h
    · cases h
    · have h' : (match skipWs cs1 with
        | [] => none
        | c :: cs2 =>
          if c = ',' then
            match parseArrayRest fuel cs2 with
            | some (vs, r) => some (JList.cons v1 vs, r)
            | none => none
          else if c = ']' then some (JList.cons v1 .nil, cs2)
          else none) = some (xs, r) := h
      rcases hsk : skipWs cs1 with _ | ⟨c, cs2⟩ <;> simp only [hsk] at h'
      · cases h'
      · split_ifs at h' with hc1 hc2
        · rcases hp2 : parseArrayRest fuel cs2 with _ | ⟨vs, r'⟩ <;> simp only [hp2] at h'
          · cases h'
          · cases h'
            show (wfVal v1 && wfElems vs) = true
            rw [Bool.and_eq_true]
            exact ⟨pwVal fuel _ _ _ hp, pwArr fuel _ _ _ hp2⟩
        · cases h'
          show (wfVal v1 && wfElems .nil) = true
          rw [Bool.and_eq_true]
          exact ⟨pwVal fuel _ _ _ hp, rfl⟩

theorem pwObj : ∀ (fuel : Nat) (cs : List Char) (ps : List (String × JValue))
    (r : List Char), parseObjRest fuel cs = some (ps, r) →
    ∀ p ∈ ps, wfVal p.2 = true
  | 0, cs, ps, r, h => by simp [parseObjRest] at h
  | fuel+1, cs, ps, r, h => by
    simp only [parseObjRest] at h
    rcases hsk : skipWs cs with _ | ⟨c, cs0⟩ <;> simp only [hsk] at h
    · cases h
    · split_ifs at h with h1
      · rcases hsb : parseStringBody cs0 with _ | ⟨kChars, cs1⟩ <;> simp only [hsb] at h
        · cases h
        · have h' : (match skipWs cs1 with
            | [] => none
            | c2 :: cs2 =>
              if c2 = ':' then
                match parseValue fuel cs2 with
                | none => none
                | some (v, cs3) =>
                  match skipWs cs3 with
                  | [] => none
                  | c3 :: cs4 =>
                    if c3 = ',' then
                      match parseObjRest fuel cs4 with
                      | some (fs, r) => some ((String.mk kChars, v) :: fs, r)
                      | none => none
                    else if c3 = '\x7d' then some ([(String.mk kChars, v)], cs4)
                    else none
              else none) = some (ps, r) := h
          rcases hsk1 : skipWs cs1 with _ | ⟨c2, cs2⟩ <;> simp only [hsk1] at h'
          · cases h'
          · split_ifs at h' with hc2
            · rcases hpv : parseValue fuel cs2 with _ | ⟨v1, cs3⟩ <;> simp only [hpv] at h'
              · cases h'
              · rcases hsk3 : skipWs cs3 with _ | ⟨c3, cs4⟩ <;> simp only [hsk3] at h'
                · cases h'
                · split_ifs at h' with hc3 hc4
                  · rcases hpo : parseObjRest fuel cs4 with _ | ⟨fs1, r'⟩ <;> simp only [hpo] at h'
                    · cases h'
                    · cases h'
                      intro p hp
                      rcases List.mem_cons.mp hp with hp | hp
                      · subst hp
                        exact pwVal fuel _ _ _ hpv
                      · exact pwObj fuel _ _ _ hpo p hp
                  · cases h'
                    intro p hp
                    rcases List.mem_singleton.mp hp with rfl
                    exact pwVal fuel _ _ _ hpv

end

theorem parseJson_wf {s : String} {v : JValue} (h : parseJson s = some v) :
    wfVal v = true := by
  unfold parseJson at h
  rcases hp : parseValue (s.data.length + 1) s.data with _ | ⟨v1, r⟩ <;> simp only [hp] at h
  · cases h
  · by_cases hr : skipWs r = []
    · rw [if_pos hr] at h
      cases h
      exact pwVal _ _ _ _ hp
    · rw [if_neg hr] at h
      cases h

/-! ## The save pipeline, assembled -/

theorem handleSaveCore_serialization {text : String} {path : List Seg}
    {origRows rows : List NodeRow} {out : String}
    (h : handleSaveCore text path origRows rows = some out) :
    ∃ v, out = stringify v ∧ parseJson out = some v := by
  unfold handleSaveCore at h
  rcases hp : parseJson (if text = "" then "\x7b\x7d" else text) with _ | parsed <;>
    rw [hp] at h
  · cases h
  · rcases ha : applyRows origRows rows (resolveTarget parsed path) with _ | newTarget <;>
      simp only [ha] at h
    · cases h
    · cases h
      have hwf : wfVal (updatePath parsed (editLocation parsed path) newTarget) = true :=
        updatePath_wf _ (parseJson_wf hp)
          (applyRows_wf (resolveTarget_wf path (parseJson_wf hp)) ha)
      exact ⟨_, rfl, parseJson_stringify hwf⟩

theorem jsIndex_not_truthy {doc : JValue} (seg : Seg) (h : truthy doc = false) :
    jsIndex doc seg = none := by
  cases doc with
  | null => cases seg <;> rfl
  | bool b => cases seg <;> rfl
  | num n => cases seg <;> rfl
  | str s =>
    have hs : s = "" := by
      simpa [truthy] using h
    subst hs
    cases seg with
    | idx n => simp [jsIndex]
    | key k =>
      simp only [jsIndex]
      rcases ht : toArrayIndex k with _ | i
      · rfl
      · simp
  | arr xs => simp [truthy] at h
  | obj fs => simp [truthy] at h

/-- The truthiness-guarded `reduce` of the source computes exactly plain
path indexing: a falsy intermediate has no indexable properties anyway. -/
theorem resolveSteps_eq_getPath : ∀ (p : List Seg) (doc : JValue),
    resolveSteps (some doc) p = getPath doc p
  | [], doc => rfl
  | seg :: p, doc => by
    simp only [resolveSteps, getPath]
    by_cases ht : truthy doc = true
    · rw [if_pos ht]
      rcases hj : jsIndex doc seg with _ | u
      · simp [resolveSteps_none p]
      · simp [resolveSteps_eq_getPath p u]
    · rw [if_neg ht,
        jsIndex_not_truthy seg (by simpa using ht), resolveSteps_none p]

theorem resolveSteps_append : ∀ (p1 p2 : List Seg) (acc : Option JValue),
    resolveSteps acc (p1 ++ p2) = resolveSteps (resolveSteps acc p1) p2
  | [], p2, acc => rfl
  | seg :: p1, p2, acc => by
    simp only [List.cons_append, resolveSteps]
    exact resolveSteps_append p1 p2 _

/-- Writing the resolved target back at the edit location is the identity:
no row ever ran, nothing changed. -/
theorem updatePath_editLocation_id (doc : JValue) (path : List Seg) :
    updatePath doc (editLocation doc path) (resolveTarget doc path) = doc := by
  unfold editLocation resolveTarget
  by_cases hp : path = []
  · simp [hp, updatePath_nil]
  · rw [if_neg hp, if_neg hp]
    rcases hr : resolveSteps (some doc) path with _ | v
    · exact updatePath_nil doc doc
    · by_cases hv : v = .null
      · simp [hv, updatePath_nil]
      · simp only [if_neg hv]
        exact updatePath_resolve_id path hr

/-- Applying rows that already agree with the target object (same keys and
already-stored coerced values) leaves the target unchanged. -/
theorem applyRowsFrom_id : ∀ (suffix : List NodeRow) (origRows : List NodeRow)
    (idx : Nat) (fs : JFields),
    (∀ j r, suffix.get? j = some r → origRows.get? (idx + j) = some r) →
    (∀ j r, suffix.get? j = some r → r.key ≠ "" →
      lookupKey fs r.key = some (convertValueByType r.rowType (jsToString r.value))) →
    applyRowsFrom origRows idx (.obj fs) suffix = some (.obj fs)
  | [], origRows, idx, fs, _, _ => rfl
  | r :: rest, origRows, idx, fs, hidx, hlook => by
    have hstep : applyRow origRows idx (.obj fs) r = some (.obj fs) := by
      unfold applyRow
      by_cases hk : r.key = ""
      · rw [if_pos hk]
      · rw [if_neg hk]
        have ho : origRows.get? idx = some r := by
          have := hidx 0 r (by simp)
          simpa using this
        simp only [ho]
        rw [if_neg (by simp : ¬ (r.key ≠ "" ∧ r.key ≠ r.key))]
        simp only [writeKeyJs, Option.some.injEq, JValue.obj.injEq]
        rw [setKey_lookup_id (hlook 0 r (by simp) hk)]
    simp only [applyRowsFrom, hstep]
    exact applyRowsFrom_id rest origRows (idx + 1) fs
      (fun j q hq => by
        have := hidx (j + 1) q (by simpa using hq)
        simpa [Nat.add_assoc, Nat.add_comm 1 j] using this)
      (fun j q hq => hlook (j + 1) q (by simpa using hq))

/-! ## Display-object membership -/

theorem keyMem_buildDisplayObjAux : ∀ (rows : List NodeRow) (acc : JFields) (k : String),
    keyMem (rows.foldl (fun fs r =>
      if r.rowType ≠ "array" ∧ r.rowType ≠ "object" ∧ r.key ≠ "" then setKey fs r.key r.value
      else fs) acc) k = true ↔
    (keyMem acc k = true ∨ ∃ r ∈ rows, r.key = k ∧ r.key ≠ "" ∧
      r.rowType ≠ "array" ∧ r.rowType ≠ "object")
  | [], acc, k => by simp
  | r :: rows, acc, k => by
    simp only [List.foldl_cons]
    by_cases hc : r.rowType ≠ "array" ∧ r.rowType ≠ "object" ∧ r.key ≠ ""
    · rw [if_pos hc]
      rw [keyMem_buildDisplayObjAux rows (setKey acc r.key r.value) k]
      rw [keyMem_setKey]
      constructor
      · rintro (h | h)
        · rcases Bool.or_eq_true _ _ |>.mp h with h | h
          · exact Or.inl h
          · exact Or.inr ⟨r, by simp, by simpa using h, hc.2.2, hc.1, hc.2.1⟩
        · rcases h with ⟨q, hq, hqs⟩
          exact Or.inr ⟨q, by simp [hq], hqs⟩
      · rintro (h | ⟨q, hq, hk, hk2, ht1, ht2⟩)
        · exact Or.inl (by simp [h])
        · rcases List.mem_cons.mp hq with rfl | hq
          · exact Or.inl (by simp [hk])
          · exact Or.inr ⟨q, hq, hk, hk2, ht1, ht2⟩
    · rw [if_neg hc]
      rw [keyMem_buildDisplayObjAux rows acc k]
      constructor
      · rintro (h | ⟨q, hq, hqs⟩)
        · exact Or.inl h
        · exact Or.inr ⟨q, by simp [hq], hqs⟩
      · rintro (h | ⟨q, hq, hk, hk2, ht1, ht2⟩)
        · exact Or.inl h
        · rcases List.mem_cons.mp hq with rfl | hq
          · exact absurd ⟨ht1, ht2, hk2⟩ hc
          · exact Or.inr ⟨q, hq, hk, hk2, ht1, ht2⟩

theorem keyMem_buildDisplayObj (rows : List NodeRow) (k : String) :
    keyMem (buildDisplayObj rows) k = true ↔
    ∃ r ∈ rows, r.key = k ∧ r.key ≠ "" ∧ r.rowType ≠ "array" ∧ r.rowType ≠ "object" := by
  rw [show buildDisplayObj rows = rows.foldl (fun fs r =>
      if r.rowType ≠ "array" ∧ r.rowType ≠ "object" ∧ r.key ≠ "" then setKey fs r.key r.value
      else fs) .nil from rfl]
  rw [keyMem_buildDisplayObjAux rows .nil k]
  simp [keyMem]

/-! ## The claims -/

/-- C1: for document `(("customer":(("name":"Alice","age":30))))`, path
`["customer"]`, the original rows of that node and edited rows renaming
nothing but changing `name` to `"Bob"` and `age` to the text `"31"`, the
save algorithm returns a document whose value is
`(("customer":(("name":"Bob","age":31))))`: the string-typed value is kept
literally, the number-typed text `"31"` is coerced to the number 31, and
nothing else changes in value. -/
theorem claim_C1_end_to_end :
    handleSaveCore "\x7b\"customer\":\x7b\"name\":\"Alice\",\"age\":30\x7d\x7d"
        [Seg.key "customer"]
        [⟨"name", .str "Alice", "string"⟩, ⟨"age", .num 30, "number"⟩]
        [⟨"name", .str "Bob", "string"⟩, ⟨"age", .str "31", "number"⟩] =
      some (stringify (.obj (.cons "customer"
        (.obj (.cons "name" (.str "Bob") (.cons "age" (.num 31) .nil))) .nil))) ∧
    parseJson (stringify (.obj (.cons "customer"
        (.obj (.cons "name" (.str "Bob") (.cons "age" (.num 31) .nil))) .nil))) =
      some (.obj (.cons "customer"
        (.obj (.cons "name" (.str "Bob") (.cons "age" (.num 31) .nil))) .nil)) :=
  ⟨by decide, by decide⟩

/-- C2: whenever the save completes, the new document text is the 2-space
re-serialization of an in-memory JSON value, and that text parses back to
exactly that value — the output is always valid JSON. -/
theorem claim_C2_output_parses :
    ∀ (text : String) (path : List Seg) (origRows rows : List NodeRow) (out : String),
      handleSaveCore text path origRows rows = some out →
      ∃ v, out = stringify v ∧ parseJson out = some v :=
  fun _ _ _ _ _ h => handleSaveCore_serialization h

theorem claim_C2_witness : ∃ v, "\x7b\x7d" = stringify v ∧ parseJson "\x7b\x7d" = some v :=
  claim_C2_output_parses "" [] [] [] "\x7b\x7d" (by decide)

/-- C3: a save attempted on document text that is not valid JSON fails and
writes nothing, and more generally any failing save leaves the store text,
the has-unsaved-changes flag and the editing flag exactly as they were
(the save is atomic). -/
theorem claim_C3_atomicity :
    (∀ (text : String) (path : List Seg) (origRows rows : List NodeRow),
      text ≠ "" → parseJson text = none →
      handleSaveCore text path origRows rows = none) ∧
    (∀ (st : ModalState) (path : List Seg) (origRows rows : List NodeRow),
      handleSaveCore st.contents path origRows rows = none →
      handleSave st path origRows rows = st) := by
  constructor
  · intro text path origRows rows htext hparse
    unfold handleSaveCore
    rw [if_neg htext]
    simp only [hparse]
  · intro st path origRows rows h
    unfold handleSave
    simp only [h]

theorem claim_C3_witness :
    handleSave ⟨"\x7b", false, true⟩ [] [] [] = ⟨"\x7b", false, true⟩ :=
  claim_C3_atomicity.2 ⟨"\x7b", false, true⟩ [] [] []
    (claim_C3_atomicity.1 "\x7b" [] [] [] (by decide) (by decide))

/-- C4 (original form refuted): saving with `editedRows = originalRows`
does not always preserve the document's value — rows that do not reflect
the document's current contents are written into it. Here the document is
`(())` (empty object) but the row list claims a key `a`, and the saved
document gains that key. -/
theorem claim_C4_counterexample :
    handleSaveCore "\x7b\x7d" [] [⟨"a", .num 1, "number"⟩] [⟨"a", .num 1, "number"⟩] =
      some "\x7b\n  \"a\": 1\n\x7d" ∧
    parseJson "\x7b\x7d" = some (.obj .nil) ∧
    parseJson "\x7b\n  \"a\": 1\n\x7d" = some (.obj (.cons "a" (.num 1) .nil)) ∧
    JValue.obj (.cons "a" (.num 1) .nil) ≠ JValue.obj .nil :=
  ⟨by decide, by decide, by decide, by decide⟩

/-- C4 (amended): when the rows agree with the document — the edit target
is an object and every keyed row's coerced value is exactly the value
already stored under its key — saving with `editedRows = originalRows`
re-serializes the document unchanged in value (only whitespace is
normalized), and the output parses back to the original value. -/
theorem claim_C4_idempotent :
    ∀ (text : String) (parsed : JValue) (path : List Seg) (rows : List NodeRow)
      (fs : JFields),
      parseJson (if text = "" then "\x7b\x7d" else text) = some parsed →
      resolveTarget parsed path = .obj fs →
      (∀ i r, rows.get? i = some r → r.key ≠ "" →
        lookupKey fs r.key = some (convertValueByType r.rowType (jsToString r.value))) →
      handleSaveCore text path rows rows = some (stringify parsed) ∧
      parseJson (stringify parsed) = some parsed := by
  intro text parsed path rows fs hp htgt hlook
  have happ : applyRows rows rows (.obj fs) = some (.obj fs) :=
    applyRowsFrom_id rows rows 0 fs (fun j r h => by simpa using h) hlook
  constructor
  · unfold handleSaveCore
    simp only [hp, htgt, happ]
    rw [← htgt, updatePath_editLocation_id]
  · exact parseJson_stringify (parseJson_wf hp)

theorem claim_C4_witness :
    handleSaveCore "\x7b\"a\":1\x7d" [] [⟨"a", .num 1, "number"⟩]
        [⟨"a", .num 1, "number"⟩] =
      some (stringify (.obj (.cons "a" (.num 1) .nil))) := by
  have hl : ∀ i r, ([⟨"a", JValue.num 1, "number"⟩] : List NodeRow).get? i = some r →
      r.key ≠ "" →
      lookupKey (.cons "a" (.num 1) .nil) r.key =
        some (convertValueByType r.rowType (jsToString r.value)) := by
    intro i r hi hk
    cases i with
    | zero =>
      cases hi
      decide
    | succ n => simp [List.get?] at hi
  exact (claim_C4_idempotent "\x7b\"a\":1\x7d" (.obj (.cons "a" (.num 1) .nil)) []
    [⟨"a", .num 1, "number"⟩] (.cons "a" (.num 1) .nil) (by decide) (by decide) hl).1

/-- C5 (original form refuted): resolution does not always return the
sub-value at the addressed location when every lookup succeeds — if the
fully-resolved value is JSON `null`, the `?? parsed` fallback returns the
document root instead of that sub-value. -/
theorem claim_C5_counterexample :
    getPath (JValue.obj (.cons "a" .null .nil)) [Seg.key "a"] = some .null ∧
    resolveTarget (JValue.obj (.cons "a" .null .nil)) [Seg.key "a"] =
      JValue.obj (.cons "a" .null .nil) ∧
    JValue.obj (.cons "a" JValue.null .nil) ≠ JValue.null :=
  ⟨by decide, by decide, by decide⟩

/-- C5 (amended): resolution with an empty path returns the document;
otherwise it indexes one segment at a time (object key for string
segments, array index for integer segments) and returns the sub-value at
the addressed location, except that it falls back to the document root
both when any lookup yields undefined/missing and when the fully-resolved
value is JSON `null`. -/
theorem claim_C5_resolution (doc : JValue) (path : List Seg) :
    resolveTarget doc path =
      (match getPath doc path with
       | some v => if v = .null then doc else v
       | none => doc) := by
  unfold resolveTarget
  by_cases hp : path = []
  · subst hp
    simp only [getPath, if_pos rfl]
    by_cases h : doc = .null <;> simp [h]
  · rw [if_neg hp, resolveSteps_eq_getPath]

/-- C6: a keyed edited row whose key differs from the same-index original
row's (non-empty) key first deletes the old key from the target object and
then inserts the new key/value pair; consequently renaming `a` (holding
number 1) to `b` with text value `"2"` leaves no binding for `a` and binds
`b` to the number 2. -/
theorem claim_C6_rename :
    (∀ (origRows : List NodeRow) (idx : Nat) (fs : JFields) (r o : NodeRow),
      origRows.get? idx = some o → r.key ≠ "" → o.key ≠ "" → o.key ≠ r.key →
      applyRow origRows idx (.obj fs) r =
        some (.obj (setKey (delKey fs o.key) r.key
          (convertValueByType r.rowType (jsToString r.value))))) ∧
    (∀ (fs : JFields) (okey rkey : String) (v : JValue), okey ≠ rkey →
      lookupKey (setKey (delKey fs okey) rkey v) okey = none ∧
      lookupKey (setKey (delKey fs okey) rkey v) rkey = some v) ∧
    applyRows [⟨"a", .num 1, "number"⟩] [⟨"b", .str "2", "number"⟩]
        (.obj (.cons "a" (.num 1) .nil)) =
      some (.obj (.cons "b" (.num 2) .nil)) := by
  refine ⟨?_, ?_, by decide⟩
  · intro origRows idx fs r o ho hk hok hone
    unfold applyRow
    rw [if_neg hk]
    simp only [ho]
    rw [if_pos ⟨hok, hone⟩]
    simp only [deleteKeyJs, writeKeyJs]
  · intro fs okey rkey v hne
    exact ⟨by rw [lookupKey_setKey_other _ _ _ _ hne, lookupKey_delKey_self],
      lookupKey_setKey_self _ _ _⟩

theorem claim_C6_witness :
    applyRow [⟨"a", .num 1, "number"⟩] 0 (.obj (.cons "a" (.num 1) .nil))
      ⟨"b", .str "2", "number"⟩ = some (.obj (.cons "b" (.num 2) .nil)) := by
  have h := claim_C6_rename.1 [⟨"a", .num 1, "number"⟩] 0 (.cons "a" (.num 1) .nil)
    ⟨"b", .str "2", "number"⟩ ⟨"a", .num 1, "number"⟩ rfl (by decide) (by decide) (by decide)
  rw [h]
  decide

/-- C7: for a number-typed row, the edited text is parsed as a numeric
literal; when it parses the number is stored, and when it does not parse
the text itself is kept (`NaN` is never written) — and a save containing
such an unparseable number row still succeeds with that best-effort
value. -/
theorem claim_C7_number_fallback :
    (∀ s : String,
      (∃ n, jsNumber s = some n ∧ convertValueByType "number" s = .num n) ∨
      (jsNumber s = none ∧ convertValueByType "number" s = .str s)) ∧
    handleSaveCore "" [] [⟨"a", .str "abc", "number"⟩] [⟨"a", .str "abc", "number"⟩] =
      some (stringify (.obj (.cons "a" (.str "abc") .nil))) := by
  constructor
  · intro s
    rcases h : jsNumber s with _ | n
    · right
      exact ⟨rfl, by simp [convertValueByType, h]⟩
    · left
      exact ⟨n, rfl, by simp [convertValueByType, h]⟩
  · decide

/-- C8: the display normalizer returns the literal text of an empty object
for no rows, the bare `String(value)` (not JSON-quoted) for a single
keyless row, and otherwise the 2-space serialization of the object built
from exactly those rows whose type is neither `array` nor `object` and
whose key is non-empty — all other rows are silently dropped. -/
theorem claim_C8_normalize :
    normalizeNodeData [] = "\x7b\x7d" ∧
    (∀ (v : JValue) (ty : String), normalizeNodeData [⟨"", v, ty⟩] = jsToString v) ∧
    (∀ (r : NodeRow) (rest : List NodeRow), ¬(rest = [] ∧ r.key = "") →
      normalizeNodeData (r :: rest) = stringify (.obj (buildDisplayObj (r :: rest)))) ∧
    (∀ (rows : List NodeRow) (k : String),
      keyMem (buildDisplayObj rows) k = true ↔
      ∃ q ∈ rows, q.key = k ∧ q.key ≠ "" ∧ q.rowType ≠ "array" ∧ q.rowType ≠ "object") := by
  refine ⟨rfl, ?_, ?_, keyMem_buildDisplayObj⟩
  · intro v ty
    simp [normalizeNodeData]
  · intro r rest h
    simp only [normalizeNodeData]
    rw [if_neg h]

theorem claim_C8_witness :
    normalizeNodeData [⟨"a", .num 1, "number"⟩, ⟨"b", .arr .nil, "array"⟩] =
      "\x7b\n  \"a\": 1\n\x7d" := by
  rw [claim_C8_normalize.2.2.1 ⟨"a", .num 1, "number"⟩ [⟨"b", .arr .nil, "array"⟩]
    (by simp)]
  decide

/-- C9: the save's target selection falls back to the document root not
only on a missing path segment but also when the path resolves completely
to JSON `null`, and when any intermediate value along the path is falsy
(`false`, `0`, or `""`); in those cases the edited rows are applied to the
document root. -/
theorem claim_C9_falsy_fallback :
    (∀ (text : String) (parsed : JValue) (path : List Seg) (origRows rows : List NodeRow),
      parseJson (if text = "" then "\x7b\x7d" else text) = some parsed → path ≠ [] →
      resolveSteps (some parsed) path = some .null →
      handleSaveCore text path origRows rows =
        (applyRows origRows rows parsed).map stringify) ∧
    (∀ (text : String) (parsed : JValue) (p1 : List Seg) (seg : Seg) (p2 : List Seg)
      (origRows rows : List NodeRow) (u : JValue),
      parseJson (if text = "" then "\x7b\x7d" else text) = some parsed →
      resolveSteps (some parsed) p1 = some u → truthy u = false →
      handleSaveCore text (p1 ++ seg :: p2) origRows rows =
        (applyRows origRows rows parsed).map stringify) := by
  constructor
  · intro text parsed path origRows rows hp hpne hnull
    have htgt : resolveTarget parsed path = parsed := by
      unfold resolveTarget
      rw [if_neg hpne]
      simp [hnull]
    have hloc : editLocation parsed path = [] := by
      unfold editLocation
      rw [if_neg hpne]
      simp [hnull]
    unfold handleSaveCore
    simp only [hp, htgt, hloc]
    rcases ha : applyRows origRows rows parsed with _ | nt <;> simp [ha, updatePath_nil]
  · intro text parsed p1 seg p2 origRows rows u hp hpre hfalsy
    have hnone : resolveSteps (some parsed) (p1 ++ seg :: p2) = none := by
      rw [resolveSteps_append, hpre]
      show resolveSteps (if truthy u = true then jsIndex u seg else none) p2 = none
      rw [if_neg (by simp [hfalsy]), resolveSteps_none]
    have hpne : p1 ++ seg :: p2 ≠ [] := by simp
    have htgt : resolveTarget parsed (p1 ++ seg :: p2) = parsed := by
      unfold resolveTarget
      rw [if_neg hpne]
      simp [hnone]
    have hloc : editLocation parsed (p1 ++ seg :: p2) = [] := by
      unfold editLocation
      rw [if_neg hpne]
      simp [hnone]
    unfold handleSaveCore
    simp only [hp, htgt, hloc]
    rcases ha : applyRows origRows rows parsed with _ | nt <;> simp [ha, updatePath_nil]

theorem claim_C9_witness :
    handleSaveCore "\x7b\"a\":null\x7d" [Seg.key "a"] []
        [⟨"x", .str "1", "number"⟩] =
      some (stringify (.obj (.cons "a" .null (.cons "x" (.num 1) .nil)))) := by
  have h := claim_C9_falsy_fallback.1 "\x7b\"a\":null\x7d"
    (.obj (.cons "a" .null .nil)) [Seg.key "a"] []
    [⟨"x", .str "1", "number"⟩] (by decide) (by simp) (by decide)
  rw [h]
  decide

/-- C10: rows whose declared type is `array` or `object` are not skipped —
the coercion's default branch keeps `String(value)` (so an object value
becomes `"[object Object]"` and the array `[1,2]` becomes `"1,2"`), and
the loop writes that string under the row's key, replacing any nested
structure previously stored there. -/
theorem claim_C10_structured_rows :
    (∀ r : NodeRow, r.rowType = "array" ∨ r.rowType = "object" →
      convertValueByType r.rowType (jsToString r.value) = .str (jsToString r.value)) ∧
    jsToString (JValue.obj (.cons "b" (.num 1) .nil)) = "[object Object]" ∧
    jsToString (JValue.arr (.cons (.num 1) (.cons (.num 2) .nil))) = "1,2" ∧
    (∀ (origRows : List NodeRow) (idx : Nat) (fs : JFields) (r : NodeRow),
      r.key ≠ "" → origRows.get? idx = some r →
      r.rowType = "array" ∨ r.rowType = "object" →
      applyRow origRows idx (.obj fs) r =
        some (.obj (setKey fs r.key (.str (jsToString r.value))))) ∧
    handleSaveCore "\x7b\"a\":\x7b\"b\":1\x7d\x7d" []
        [⟨"a", .obj (.cons "b" (.num 1) .nil), "object"⟩]
        [⟨"a", .obj (.cons "b" (.num 1) .nil), "object"⟩] =
      some (stringify (.obj (.cons "a" (.str "[object Object]") .nil))) := by
  have hconv : ∀ r : NodeRow, r.rowType = "array" ∨ r.rowType = "object" →
      convertValueByType r.rowType (jsToString r.value) = .str (jsToString r.value) := by
    intro r h
    rcases h with h | h <;> rw [h] <;> rfl
  refine ⟨hconv, by decide, by decide, ?_, by decide⟩
  intro origRows idx fs r hk ho htype
  unfold applyRow
  rw [if_neg hk]
  simp only [ho]
  rw [if_neg (by simp : ¬ (r.key ≠ "" ∧ r.key ≠ r.key))]
  simp only [writeKeyJs, hconv r htype]

theorem claim_C10_witness :
    convertValueByType "array"
        (jsToString (JValue.arr (.cons (.num 1) (.cons (.num 2) .nil)))) =
      .str "1,2" := by
  have h := claim_C10_structured_rows.1
    ⟨"k", .arr (.cons (.num 1) (.cons (.num 2) .nil)), "array"⟩ (Or.inl rfl)
  exact h.trans (by decide)
